import Mathlib

/-!
Shallow embedding of the wav streaming encoder (`encoder.go`).

The abstract random-access byte sink (`WriterAtSeeker`) is modelled as a
byte store (`Nat → Nat`), a size, a cursor, plus a failure schedule
`failOn` on the index of the write call (so that individual sink writes
can be made to fail, as the error-propagation claims require).  Seeks are
modelled as infallible.  Machine integers are modelled as `Nat`/`Int`
with explicit `% 2^w` where the Go code converts to `uint16`/`uint32`.
-/

namespace Wav

/-- Pointwise update of a byte store. -/
def upd (d : Nat → Nat) (i : Nat) (b : Nat) : Nat → Nat :=
  fun j => if j = i then b else d j

/-- Write a list of bytes into a byte store starting at `off`. -/
def store : (Nat → Nat) → Nat → List Nat → (Nat → Nat)
  | d, _, [] => d
  | d, off, b :: bs => store (upd d off b) (off + 1) bs

/-- The abstract byte sink (`WriterAtSeeker`): byte content, current
length, cursor, number of write calls made so far, and a schedule saying
which write calls fail. -/
@[ext]
structure Sink where
  data : Nat → Nat
  size : Nat
  pos : Nat
  nCalls : Nat
  failOn : Nat → Bool

/-- A sink none of whose write calls ever fails. -/
def Reliable (s : Sink) : Prop := ∀ i, s.failOn i = false

/-- Sequential write at the sink cursor (`io.Writer.Write`); returns the
updated sink, the byte count `n`, and the error. -/
def Sink.write (s : Sink) (bs : List Nat) : Sink × Nat × Option String :=
  if s.failOn s.nCalls then
    ({ s with nCalls := s.nCalls + 1 }, 0, some "sink write failed")
  else
    ({ data := store s.data s.pos bs
       size := max s.size (s.pos + bs.length)
       pos := s.pos + bs.length
       nCalls := s.nCalls + 1
       failOn := s.failOn }, bs.length, none)

/-- Positioned write (`io.WriterAt.WriteAt`); does not move the cursor. -/
def Sink.writeAt (s : Sink) (bs : List Nat) (off : Nat) : Sink × Nat × Option String :=
  if s.failOn s.nCalls then
    ({ s with nCalls := s.nCalls + 1 }, 0, some "sink writeAt failed")
  else
    ({ s with data := store s.data off bs
              size := max s.size (off + bs.length)
              nCalls := s.nCalls + 1 }, bs.length, none)

/-- Model of `Seek(off, 0)`: seek from the origin. -/
def Sink.seekTo (s : Sink) (off : Nat) : Sink := { s with pos := off }

/-- Model of `Seek(0, 2)`: seek to the end of the stream. -/
def Sink.seekEnd (s : Sink) : Sink := { s with pos := s.size }

/-- A fresh, empty, reliable sink. -/
def emptySink : Sink :=
  { data := fun _ => 0, size := 0, pos := 0, nCalls := 0, failOn := fun _ => false }

/-- A fresh, empty sink that fails exactly its `k`-th write call. -/
def failSink (k : Nat) : Sink := { emptySink with failOn := fun i => i == k }

/-- Modelled from the spec: the audio-buffer collaborator
(`audio.IntBuffer`, external to this repository) exposing a channel
count and a flat interleaved integer sample sequence. -/
structure IntBuffer where
  numChannels : Nat
  data : List Int

/-- Modelled from the spec: the known frame count of the buffer
(`IntBuffer.NumFrames`), the flat sample count divided by the channel
count. -/
def IntBuffer.numFrames (b : IntBuffer) : Nat := b.data.length / b.numChannels

/-- The encoder state (`Encoder`): the sink (`nil` representable), the
immutable configuration, the optional metadata (modelled from the spec
as the opaque encoded INFO payload blob it produces), and the mutable
progress state. -/
@[ext]
structure Enc where
  w : Option Sink
  sampleRate : Nat
  bitDepth : Nat
  numChans : Nat
  wavAudioFormat : Nat
  metadata : Option (List Nat)
  writtenBytes : Nat
  frames : Nat
  pcmChunkStarted : Bool
  pcmChunkSizePos : Nat
  pcmChunkPos : Nat
  wroteHeader : Bool

/-- Model of `NewEncoder`. -/
def newEncoder (w : Sink) (sampleRate bitDepth numChans audioFormat : Nat) : Enc :=
  { w := some w
    sampleRate := sampleRate
    bitDepth := bitDepth
    numChans := numChans
    wavAudioFormat := audioFormat
    metadata := none
    writtenBytes := 0
    frames := 0
    pcmChunkStarted := false
    pcmChunkSizePos := 0
    pcmChunkPos := 0
    wroteHeader := false }

/-- The `k` little-endian bytes of `m`. -/
def leBytes : Nat → Nat → List Nat
  | 0, _ => []
  | k + 1, m => m % 256 :: leBytes k (m / 256)

/-- Modelled from the spec: `riff.RiffID`, the ASCII bytes of RIFF. -/
def riffID : List Nat := [82, 73, 70, 70]

/-- Modelled from the spec: `riff.WavFormatID`, the ASCII bytes of WAVE. -/
def wavFormatID : List Nat := [87, 65, 86, 69]

/-- Modelled from the spec: `riff.FmtID`, the ASCII bytes of fmt(space). -/
def fmtID : List Nat := [102, 109, 116, 32]

/-- Modelled from the spec: `riff.DataFormatID`, the ASCII bytes of data. -/
def dataFormatID : List Nat := [100, 97, 116, 97]

/-- Modelled from the spec: `CIDList`, the ASCII bytes of LIST. -/
def cidList : List Nat := [76, 73, 83, 84]

/-- Common body of `AddLE`/`AddBE` on an already serialized byte list:
`WrittenBytes += binary.Size(src)` followed by `binary.Write` to the
sink.  Note that the byte counter advances even when the sink write
fails, exactly as in the source.  A write to a nil sink (a Go panic) is
modelled as an error; no claim exercises that path. -/
def encAdd (e : Enc) (bs : List Nat) : Enc × Option String :=
  let e := { e with writtenBytes := e.writtenBytes + bs.length }
  match e.w with
  | none => (e, some "nil writer")
  | some s =>
      match s.write bs with
      | (s1, _, err) => ({ e with w := some s1 }, err)

/-- The bytes `binary.Write` emits for a `uint16` (little endian). -/
def le16c (v : Nat) : List Nat := leBytes 2 (v % 65536)

/-- The bytes `binary.Write` emits for a `uint32` (little endian). -/
def le32c (v : Nat) : List Nat := leBytes 4 (v % 4294967296)

/-- Model of `AddLE` on a `uint16` value. -/
def addLE16 (e : Enc) (v : Nat) : Enc × Option String :=
  encAdd e (le16c v)

/-- Model of `AddLE` on a `uint32` value. -/
def addLE32 (e : Enc) (v : Nat) : Enc × Option String :=
  encAdd e (le32c v)

/-- A sequence of `AddLE`/`AddBE` calls on already serialized chunks,
each checked for an error before the next runs (the Go
`if err := e.AddLE(...); err != nil { return err }` cascade). -/
def addMany (e : Enc) : List (List Nat) → Enc × Option String
  | [] => (e, none)
  | bs :: rest =>
    match encAdd e bs with
    | (e, some err) => (e, some err)
    | (e, none) => addMany e rest

/-- Error-propagating sequencing of encoder steps (the Go
`if err := ...; err != nil { return err }` pattern). -/
def andThen (r : Enc × Option String) (f : Enc → Enc × Option String) : Enc × Option String :=
  match r with
  | (e, some err) => (e, some err)
  | (e, none) => f e

/-- Model of `writeHeader`.  As in the source, `wroteHeader` is set before the
nil-writer check, the emission is skipped silently when bytes were
already written, and the eleven header fields are emitted in order
(riff ID, size placeholder, WAVE ID, fmt ID, chunk size 16, format tag,
channel count, sample rate, average bytes per second, block align, bits
per sample), each `AddLE` checked for an error before the next. -/
def writeHeader (e : Enc) : Enc × Option String :=
  if e.wroteHeader then (e, some "already wrote header")
  else
    let e := { e with wroteHeader := true }
    match e.w with
    | none => (e, some "cant write to a nil writer")
    | some _ =>
      if e.writtenBytes > 0 then (e, none)
      else
        let blockAlign := e.numChans * e.bitDepth / 8
        addMany e
          [riffID, le32c 42, wavFormatID, fmtID, le32c 16,
           le16c e.wavAudioFormat, le16c e.numChans, le32c e.sampleRate,
           le32c (e.sampleRate * blockAlign), le16c blockAlign,
           le16c e.bitDepth]

/-- Model of `writeSetup`: lazy header emission followed by lazy opening of the
data chunk (tag, placeholder size whose offset is recorded, and the
offset of the first payload byte). -/
def writeSetup (e : Enc) : Enc × Option String :=
  andThen (if e.wroteHeader then (e, none) else writeHeader e) (fun e =>
    if e.pcmChunkStarted then (e, none)
    else
      andThen (encAdd e dataFormatID) (fun e =>
        let e := { e with pcmChunkStarted := true, pcmChunkSizePos := e.writtenBytes }
        andThen (addLE32 e 42) (fun e =>
          ({ e with pcmChunkPos := e.writtenBytes }, none))))

/-- One sample serialized at the configured bit depth (the `switch
e.BitDepth` in `addBuffer`); `uint8`/`int16`/`int32` conversions are the
value modulo the width, and `audio.Int32toInt24LEBytes` (modelled from
the spec: truncate to 24 bits, three bytes, low byte first) keeps the
low three bytes.  Any other bit depth is an encode-time error. -/
def encodeSampleBytes (bd : Nat) (v : Int) : Option (List Nat) :=
  match bd with
  | 8 => some (leBytes 1 (v.emod 256).toNat)
  | 16 => some (leBytes 2 (v.emod 65536).toNat)
  | 24 => some (leBytes 3 (v.emod 16777216).toNat)
  | 32 => some (leBytes 4 (v.emod 4294967296).toNat)
  | _ => none

/-- Serialize a sample sequence into the scratch buffer, aborting on an
unsupported bit depth. -/
def encChunks (bd : Nat) : List Int → Option (List Nat)
  | [] => some []
  | v :: vs =>
    match encodeSampleBytes bd v with
    | none => none
    | some c =>
      match encChunks bd vs with
      | none => none
      | some r => some (c ++ r)

/-- The sample sequence visited by the nested loops of `addBuffer`:
`buf.Data[i*numChannels+j]` for frame `i` and channel `j`. -/
def bufSamples (buf : IntBuffer) : List Int :=
  (List.range buf.numFrames).flatMap (fun i =>
    (List.range buf.numChannels).map (fun j =>
      buf.data.getD (i * buf.numChannels + j) 0))

/-- Model of `addBuffer`: nil check, per-sample serialization into a scratch
buffer, then one sink write (sequential, or positioned at
`pcmChunkPos + pos`), then counter updates.  As in the source, the error
of that final sink write is discarded: the returned error is `none` even
when the sink write failed, and the frame counter advances by the
frame count of the buffer regardless. -/
def addBuffer (e : Enc) (buf : Option IntBuffer) (pos : Option Nat) :
    Enc × Nat × Option String :=
  match buf with
  | none => (e, 0, some "cant add a nil buffer")
  | some buf =>
    match encChunks e.bitDepth (bufSamples buf) with
    | none => (e, 0, some "cant add frames of this bit size")
    | some bs =>
      match e.w with
      | none => (e, 0, some "nil writer")
      | some s =>
        match (match pos with
               | none => s.write bs
               | some p => s.writeAt bs (e.pcmChunkPos + p)) with
        | (s1, n, _err) =>
          ({ e with w := some s1
                    frames := e.frames + buf.numFrames
                    writtenBytes := e.writtenBytes + n }, n, none)

/-- Model of `Write`. -/
def write (e : Enc) (buf : Option IntBuffer) : Enc × Option String :=
  match writeSetup e with
  | (e, some err) => (e, some err)
  | (e, none) =>
    match addBuffer e buf none with
    | (e, _, err) => (e, err)

/-- Model of `WriteAt`. -/
def writeAt (e : Enc) (buf : Option IntBuffer) (pos : Nat) : Enc × Nat × Option String :=
  match writeSetup e with
  | (e, some err) => (e, 0, some err)
  | (e, none) => addBuffer e buf (some pos)

/-- Model of `WriteFrame`, taking the little-endian serialization of the passed
native value.  As in the source: the `writeHeader` error is ignored, the
data chunk is opened without recording `pcmChunkPos`, and the frame
counter advances by one before the single value is added. -/
def writeFrame (e : Enc) (v : List Nat) : Enc × Option String :=
  let e := if e.wroteHeader then e else (writeHeader e).1
  andThen
    (if e.pcmChunkStarted then (e, none)
     else
       andThen (encAdd e dataFormatID) (fun e =>
         let e := { e with pcmChunkStarted := true, pcmChunkSizePos := e.writtenBytes }
         addLE32 e 42))
    (fun e =>
      let e := { e with frames := e.frames + 1 }
      encAdd e v)

/-- A native Go value handed to `AddLE`, `AddBE` or `WriteFrame`: either a
fixed-size value, represented by its little-endian serialization (for
which `binary.Size` returns the byte count), or a non-fixed-size value
such as a plain `int`, for which `binary.Size` returns -1 and
`binary.Write` fails without writing anything to the sink. -/
inductive GoValue where
  | fixed (bs : List Nat)
  | nonFixed

/-- The body of `AddLE`/`AddBE` on a native value:
`WrittenBytes += binary.Size(src)` then `binary.Write`.  For a
fixed-size value this is `encAdd` on its serialization.  For a
non-fixed-size value `binary.Size` is -1, so the byte counter is
decremented by one and `binary.Write` returns an error without touching
the sink.  `WrittenBytes` is a Go `int` while the model counter is a
`Nat`, so the decrement is truncated subtraction; it agrees with the
source whenever the counter stays nonnegative, which holds on every
trace stated below. -/
def encAddV (e : Enc) (v : GoValue) : Enc × Option String :=
  match v with
  | GoValue.fixed bs => encAdd e bs
  | GoValue.nonFixed =>
      ({ e with writtenBytes := e.writtenBytes - 1 }, some "binary.Write: invalid type")

/-- Model of `WriteFrame` on a native value: identical to `writeFrame` except
that the final `AddLE` takes the native value (`encAddV`), so a
non-fixed-size value still advances the frame counter but decrements the
byte counter. -/
def writeFrameV (e : Enc) (v : GoValue) : Enc × Option String :=
  let e := if e.wroteHeader then e else (writeHeader e).1
  andThen
    (if e.pcmChunkStarted then (e, none)
     else
       andThen (encAdd e dataFormatID) (fun e =>
         let e := { e with pcmChunkStarted := true, pcmChunkSizePos := e.writtenBytes }
         addLE32 e 42))
    (fun e =>
      let e := { e with frames := e.frames + 1 }
      encAddV e v)

/-- Whether a native value is fixed-size, i.e. `binary.Size` returns its byte
count rather than -1. -/
def fixedVal : GoValue → Bool
  | GoValue.fixed _ => true
  | GoValue.nonFixed => false

/-- Modelled from the spec: `encodeInfoChunk`, the metadata-encoding
collaborator (not under `src/`), returning the opaque encoded INFO list
payload of the attached metadata. -/
def encodeInfoChunk (e : Enc) : List Nat := e.metadata.getD []

/-- Model of `writeMetadata`: LIST tag (`AddBE` of the four ASCII bytes),
`uint32` payload length, payload (`AddBE` of the raw blob). -/
def writeMetadata (e : Enc) : Enc × Option String :=
  let chunkData := encodeInfoChunk e
  addMany e [cidList, le32c chunkData.length, chunkData]

/-- Seek the sink of the encoder from the origin (seeks are infallible in the
model). -/
def seekEnc (e : Enc) (off : Nat) : Enc :=
  { e with w := e.w.map (fun s => s.seekTo off) }

/-- Seek the sink of the encoder to the end of the stream. -/
def seekEndEnc (e : Enc) : Enc :=
  { e with w := e.w.map (fun s => s.seekEnd) }

/-- The patch pass at the tail of `Close`: RIFF-size patch at offset 4
with `uint32(WrittenBytes) - 8` (the `uint32` subtraction wraps), data
chunk size patch at the recorded placeholder offset when one was
recorded, then a seek to the end. -/
def closePatches (e : Enc) : Enc × Option String :=
  let e := seekEnc e 4
  andThen (addLE32 e (e.writtenBytes + 4294967288)) (fun e =>
    andThen (if e.pcmChunkSizePos > 0 then
               let e := seekEnc e e.pcmChunkSizePos
               addLE32 e ((e.bitDepth / 8) * e.numChans * e.frames)
             else (e, none)) (fun e =>
      (seekEndEnc e, none)))

/-- Model of `Close`: a nil encoder or nil sink is a silent no-op; otherwise the
metadata chunk is emitted first when one is attached, and then the size
fields are patched (`closePatches`). -/
def close (e : Enc) : Enc × Option String :=
  match e.w with
  | none => (e, none)
  | some _ =>
    andThen (match e.metadata with
             | none => (e, none)
             | some _ => writeMetadata e) closePatches

/-- The sink of the encoder (for stating properties of the final content). -/
def sinkOf (e : Enc) : Sink := e.w.getD emptySink

/-- Decode the little-endian 32-bit field stored at `off`. -/
def readLE32 (s : Sink) (off : Nat) : Nat :=
  s.data off + 256 * s.data (off + 1) + 65536 * s.data (off + 2) +
    16777216 * s.data (off + 3)

/-- Decode a little-endian 32-bit field directly from a byte store. -/
def readLE32d (d : Nat → Nat) (off : Nat) : Nat :=
  d off + 256 * d (off + 1) + 65536 * d (off + 2) + 16777216 * d (off + 3)

/-- The state in which sample writes no longer touch the header: header
written, data chunk open, no metadata attached, reliable sink. -/
def ChunkReady (e : Enc) : Prop :=
  e.wroteHeader = true ∧ e.pcmChunkStarted = true ∧ e.metadata = none ∧
    ∃ s, e.w = some s ∧ Reliable s

/-- One caller-visible sample write: `Write` for a sequential append,
`WriteAt pos` for a positioned write. -/
def writeStep (e : Enc) (b : IntBuffer) (p : Option Nat) : Enc :=
  match p with
  | none => (write e (some b)).1
  | some p => (writeAt e (some b) p).1

/-- A sequence of caller-visible sample writes. -/
def runWrites (e : Enc) : List (IntBuffer × Option Nat) → Enc
  | [] => e
  | bp :: rest => runWrites (writeStep e bp.1 bp.2) rest

/-- Total frame count of a sequence of buffers. -/
def totalFrames (l : List (IntBuffer × Option Nat)) : Nat :=
  (l.map (fun bp => bp.1.numFrames)).sum

/-- The extra bytes `Close` emits before patching: the LIST tag, its
size field and the payload, when metadata is attached. -/
def metaBytes : Option (List Nat) → Nat
  | none => 0
  | some blob => 8 + blob.length

/-- A run of `k` successive `WriteFrame` calls, each adding the same serialized
value. -/
def runFrames (e : Enc) (v : List Nat) : Nat → Enc
  | 0 => e
  | k + 1 => runFrames ((writeFrame e v).1) v k

/-- The operations a caller can invoke on an encoder after creation.
`writeFrame`, `addLE` and `addBE` take an arbitrary native value
(`GoValue`), which need not be fixed-size. -/
inductive Op where
  | write (buf : Option IntBuffer)
  | writeAt (buf : Option IntBuffer) (pos : Nat)
  | writeFrame (v : GoValue)
  | addLE (v : GoValue)
  | addBE (v : GoValue)
  | close

/-- Apply one operation, keeping the resulting encoder state. -/
def step (e : Enc) : Op → Enc
  | Op.write buf => (write e buf).1
  | Op.writeAt buf pos => (writeAt e buf pos).1
  | Op.writeFrame v => (writeFrameV e v).1
  | Op.addLE v => (encAddV e v).1
  | Op.addBE v => (encAddV e v).1
  | Op.close => (close e).1

/-- Whether an operation hands only fixed-size values to the serializer (the
operations that take no native value always do). -/
def fixedOp : Op → Bool
  | Op.writeFrame v => fixedVal v
  | Op.addLE v => fixedVal v
  | Op.addBE v => fixedVal v
  | _ => true

/-- Run a sequence of operations. -/
def run (e : Enc) : List Op → Enc
  | [] => e
  | op :: ops => run (step e op) ops

/-- A one-frame mono buffer holding the sample 5. -/
def sBuf : IntBuffer := ⟨1, [5]⟩

/-- A fresh 16-bit mono encoder over an empty reliable sink. -/
def tEnc0 : Enc := newEncoder emptySink 8000 16 1 1

/-- The encoder after one one-frame write (46 bytes written). -/
def tEnc1 : Enc := (write tEnc0 (some sBuf)).1

/-- A fresh 16-bit mono encoder over a sink that fails exactly its 14th
write call: the first thirteen calls are the eleven header fields, the
data tag and the placeholder, so the failing call is the PCM payload
write of the first `Write`. -/
def tFail : Enc := newEncoder (failSink 13) 8000 16 1 1

/-- Another one-frame mono buffer, holding the sample 7. -/
def dBuf : IntBuffer := ⟨1, [7]⟩

/-- The fresh encoder `tEnc0` after its lazy setup. -/
def tReady : Enc := (writeSetup tEnc0).1

theorem readLE32_eq (s : Sink) (off : Nat) : readLE32 s off = readLE32d s.data off := rfl

theorem store_out (bs : List Nat) (d : Nat → Nat) (off j : Nat)
    (h : j < off ∨ off + bs.length ≤ j) : store d off bs j = d j := by
  induction bs generalizing d off with
  | nil => rfl
  | cons b t ih =>
    show store (upd d off b) (off + 1) t j = d j
    rw [ih (upd d off b) (off + 1) (by simp at h; omega)]
    unfold upd
    have : j ≠ off := by simp at h; omega
    simp [this]

theorem store_get (bs : List Nat) (d : Nat → Nat) (off k : Nat)
    (h : k < bs.length) : store d off bs (off + k) = bs.getD k 0 := by
  induction bs generalizing d off k with
  | nil => simp at h
  | cons b t ih =>
    match k with
    | 0 =>
      show store (upd d off b) (off + 1) t off = b
      rw [store_out t (upd d off b) (off + 1) off (Or.inl (by omega))]
      simp [upd]
    | k + 1 =>
      show store (upd d off b) (off + 1) t (off + (k + 1)) = t.getD k 0
      have : off + (k + 1) = (off + 1) + k := by omega
      rw [this, ih (upd d off b) (off + 1) k (by simpa using h)]

theorem store_get_sub (bs : List Nat) (d : Nat → Nat) (off j : Nat)
    (h1 : off ≤ j) (h2 : j < off + bs.length) :
    store d off bs j = bs.getD (j - off) 0 := by
  have h := store_get bs d off (j - off) (by omega)
  rw [show off + (j - off) = j from by omega] at h
  exact h

theorem store_comm (d : Nat → Nat) (o1 o2 : Nat) (b1 b2 : List Nat)
    (h : o1 + b1.length ≤ o2 ∨ o2 + b2.length ≤ o1) :
    store (store d o1 b1) o2 b2 = store (store d o2 b2) o1 b1 := by
  funext j
  by_cases h2 : o2 ≤ j ∧ j < o2 + b2.length
  · rw [store_get_sub b2 _ o2 j h2.1 h2.2,
      store_out b1 _ o1 j (by omega),
      store_get_sub b2 _ o2 j h2.1 h2.2]
  · have hout2 : j < o2 ∨ o2 + b2.length ≤ j := by omega
    rw [store_out b2 _ o2 j hout2]
    by_cases h1 : o1 ≤ j ∧ j < o1 + b1.length
    · rw [store_get_sub b1 _ o1 j h1.1 h1.2, store_get_sub b1 _ o1 j h1.1 h1.2]
    · have hout1 : j < o1 ∨ o1 + b1.length ≤ j := by omega
      rw [store_out b1 _ o1 j hout1, store_out b1 _ o1 j hout1,
        store_out b2 _ o2 j hout2]

theorem leBytes_length (k m : Nat) : (leBytes k m).length = k := by
  induction k generalizing m with
  | zero => rfl
  | succ k ih => simp [leBytes, ih]

theorem leBytes_four (m : Nat) :
    leBytes 4 m = [m % 256, m / 256 % 256, m / 65536 % 256, m / 16777216 % 256] := by
  show [m % 256, m / 256 % 256, m / 256 / 256 % 256, m / 256 / 256 / 256 % 256] = _
  norm_num [Nat.div_div_eq_div_mul]

theorem le32_decomp (m : Nat) :
    m % 256 + 256 * (m / 256 % 256) + 65536 * (m / 65536 % 256) +
      16777216 * (m / 16777216 % 256) = m % 4294967296 := by
  omega

theorem readLE32d_store (d : Nat → Nat) (off m : Nat) :
    readLE32d (store d off (leBytes 4 m)) off = m % 4294967296 := by
  unfold readLE32d
  have h0 := store_get (leBytes 4 m) d off 0 (by rw [leBytes_length]; omega)
  have h1 := store_get (leBytes 4 m) d off 1 (by rw [leBytes_length]; omega)
  have h2 := store_get (leBytes 4 m) d off 2 (by rw [leBytes_length]; omega)
  have h3 := store_get (leBytes 4 m) d off 3 (by rw [leBytes_length]; omega)
  rw [Nat.add_zero] at h0
  rw [h0, h1, h2, h3, leBytes_four]
  show m % 256 + 256 * (m / 256 % 256) + 65536 * (m / 65536 % 256) +
    16777216 * (m / 16777216 % 256) = m % 4294967296
  exact le32_decomp m

theorem encAdd_ok (e : Enc) (s : Sink) (bs : List Nat)
    (hw : e.w = some s) (hok : s.failOn s.nCalls = false) :
    encAdd e bs =
      ({ e with writtenBytes := e.writtenBytes + bs.length
                w := some { data := store s.data s.pos bs
                            size := max s.size (s.pos + bs.length)
                            pos := s.pos + bs.length
                            nCalls := s.nCalls + 1
                            failOn := s.failOn } }, none) := by
  unfold encAdd Sink.write
  simp only [hw, hok]
  rfl

theorem encAdd_rel (e : Enc) (s : Sink) (bs : List Nat)
    (hw : e.w = some s) (hrel : Reliable s) :
    ∃ s1, encAdd e bs =
        ({ e with writtenBytes := e.writtenBytes + bs.length, w := some s1 }, none) ∧
      Reliable s1 := by
  refine ⟨_, encAdd_ok e s bs hw (hrel s.nCalls), ?_⟩
  intro i
  exact hrel i

theorem andThen_none (e1 : Enc) (f : Enc → Enc × Option String) :
    andThen (e1, none) f = f e1 := rfl

theorem andThen_some (e1 : Enc) (msg : String) (f : Enc → Enc × Option String) :
    andThen (e1, some msg) f = (e1, some msg) := rfl

/-- Every path through `encAdd` adds the chunk length to the byte
counter and leaves every other non-sink field unchanged. -/
theorem encAdd_fields (e : Enc) (bs : List Nat) :
    ((encAdd e bs).1).writtenBytes = e.writtenBytes + bs.length ∧
    ((encAdd e bs).1).frames = e.frames ∧
    ((encAdd e bs).1).wroteHeader = e.wroteHeader ∧
    ((encAdd e bs).1).pcmChunkStarted = e.pcmChunkStarted ∧
    ((encAdd e bs).1).pcmChunkSizePos = e.pcmChunkSizePos ∧
    ((encAdd e bs).1).pcmChunkPos = e.pcmChunkPos ∧
    ((encAdd e bs).1).metadata = e.metadata ∧
    ((encAdd e bs).1).bitDepth = e.bitDepth ∧
    ((encAdd e bs).1).numChans = e.numChans ∧
    ((encAdd e bs).1).sampleRate = e.sampleRate ∧
    ((encAdd e bs).1).wavAudioFormat = e.wavAudioFormat := by
  obtain ⟨w, sr, bd, nc, af, md, wb, fr, pcs, pszp, pcp, wh⟩ := e
  cases w with
  | none => exact ⟨rfl, rfl, rfl, rfl, rfl, rfl, rfl, rfl, rfl, rfl, rfl⟩
  | some s =>
    unfold encAdd Sink.write
    by_cases hf : s.failOn s.nCalls <;> simp [hf]

/-- Total byte length of a chunk sequence. -/
def sumLens (l : List (List Nat)) : Nat := (l.map List.length).sum

theorem sumLens_cons (bs : List Nat) (l : List (List Nat)) :
    sumLens (bs :: l) = bs.length + sumLens l := by
  simp [sumLens]

/-- Lemma: `addMany` on a reliable sink succeeds, adds the total chunk length
to the byte counter, and keeps the sink reliable. -/
theorem addMany_rel : ∀ (l : List (List Nat)) (e : Enc) (s : Sink),
    e.w = some s → Reliable s →
    ∃ s1, addMany e l =
        ({ e with writtenBytes := e.writtenBytes + sumLens l, w := some s1 }, none) ∧
      Reliable s1 := by
  intro l
  induction l with
  | nil =>
    intro e s hw hrel
    refine ⟨s, ?_, hrel⟩
    rw [← hw]
    rfl
  | cons bs rest ih =>
    intro e s hw hrel
    obtain ⟨s1, h1, hrel1⟩ := encAdd_rel e s bs hw hrel
    obtain ⟨s2, h2, hrel2⟩ :=
      ih { e with writtenBytes := e.writtenBytes + bs.length, w := some s1 } s1 rfl hrel1
    refine ⟨s2, ?_, hrel2⟩
    show (match encAdd e bs with
          | (e, some err) => (e, some err)
          | (e, none) => addMany e rest) = _
    rw [h1]
    show addMany { e with writtenBytes := e.writtenBytes + bs.length, w := some s1 } rest = _
    rw [h2]
    have harith : e.writtenBytes + bs.length + sumLens rest =
        e.writtenBytes + sumLens (bs :: rest) := by
      rw [sumLens_cons]
      omega
    simp only [harith]

/-- Every path through `addMany` (including early error exits) only
grows the byte counter and leaves every other non-sink field
unchanged. -/
theorem addMany_pres : ∀ (l : List (List Nat)) (e : Enc),
    e.writtenBytes ≤ ((addMany e l).1).writtenBytes ∧
    ((addMany e l).1).frames = e.frames ∧
    ((addMany e l).1).wroteHeader = e.wroteHeader ∧
    ((addMany e l).1).pcmChunkStarted = e.pcmChunkStarted ∧
    ((addMany e l).1).pcmChunkSizePos = e.pcmChunkSizePos ∧
    ((addMany e l).1).pcmChunkPos = e.pcmChunkPos ∧
    ((addMany e l).1).metadata = e.metadata ∧
    ((addMany e l).1).bitDepth = e.bitDepth ∧
    ((addMany e l).1).numChans = e.numChans := by
  intro l
  induction l with
  | nil => intro e; exact ⟨Nat.le_refl _, rfl, rfl, rfl, rfl, rfl, rfl, rfl, rfl⟩
  | cons bs rest ih =>
    intro e
    have hf := encAdd_fields e bs
    rcases hE : encAdd e bs with ⟨e', o⟩
    rw [hE] at hf
    obtain ⟨b1, b2, b3, b4, b5, b6, b7, b8, b9, b10, b11⟩ := hf
    have c1 : e'.writtenBytes = e.writtenBytes + bs.length := b1
    have c2 : e'.frames = e.frames := b2
    have c3 : e'.wroteHeader = e.wroteHeader := b3
    have c4 : e'.pcmChunkStarted = e.pcmChunkStarted := b4
    have c5 : e'.pcmChunkSizePos = e.pcmChunkSizePos := b5
    have c6 : e'.pcmChunkPos = e.pcmChunkPos := b6
    have c7 : e'.metadata = e.metadata := b7
    have c8 : e'.bitDepth = e.bitDepth := b8
    have c9 : e'.numChans = e.numChans := b9
    cases o with
    | some msg =>
      have hred : addMany e (bs :: rest) = (e', some msg) := by
        show (match encAdd e bs with
              | (e, some err) => (e, some err)
              | (e, none) => addMany e rest) = (e', some msg)
        rw [hE]
      rw [hred]
      exact ⟨by omega, c2, c3, c4, c5, c6, c7, c8, c9⟩
    | none =>
      have hred : addMany e (bs :: rest) = addMany e' rest := by
        show (match encAdd e bs with
              | (e, some err) => (e, some err)
              | (e, none) => addMany e rest) = addMany e' rest
        rw [hE]
      rw [hred]
      obtain ⟨a1, a2, a3, a4, a5, a6, a7, a8, a9⟩ := ih e'
      exact ⟨by omega, by rw [a2, c2], by rw [a3, c3], by rw [a4, c4],
        by rw [a5, c5], by rw [a6, c6], by rw [a7, c7], by rw [a8, c8], by rw [a9, c9]⟩

/-- Lemma: `writeHeader` always leaves the `wroteHeader` flag set (it is set
before any error path, and already-true when the usage error fires). -/
theorem writeHeader_flag (e : Enc) : ((writeHeader e).1).wroteHeader = true := by
  obtain ⟨w, sr, bd, nc, af, md, wb, fr, pcs, pszp, pcp, wh⟩ := e
  cases wh with
  | true => rfl
  | false =>
    cases w with
    | none => rfl
    | some s =>
      show ((if wb > 0 then _ else _ : Enc × Option String).1).wroteHeader = true
      split
      · rfl
      · exact (addMany_pres _ _).2.2.1

/-- Lemma: `writeSetup` is a no-op once the header is written and the data
chunk is open. -/
theorem writeSetup_skip (e : Enc) (h1 : e.wroteHeader = true) (h2 : e.pcmChunkStarted = true) :
    writeSetup e = (e, none) := by
  unfold writeSetup
  rw [h1]
  show (if e.pcmChunkStarted = true then (e, none) else _) = (e, none)
  rw [h2]
  rfl

/-- A successful `writeSetup` leaves the header written and the data
chunk open. -/
theorem writeSetup_done (e e1 : Enc) (h : writeSetup e = (e1, none)) :
    e1.wroteHeader = true ∧ e1.pcmChunkStarted = true := by
  unfold writeSetup at h
  rcases hst : (if e.wroteHeader then (e, none) else writeHeader e) with ⟨e', o⟩
  rw [hst] at h
  have he' : e'.wroteHeader = true := by
    by_cases hwh : e.wroteHeader = true
    · rw [if_pos hwh] at hst
      cases hst
      exact hwh
    · have hwh' : e.wroteHeader = false := by simpa using hwh
      rw [hwh'] at hst
      simp only [Bool.false_eq_true, if_false] at hst
      have := writeHeader_flag e
      rw [hst] at this
      exact this
  cases o with
  | some msg => simp [andThen] at h
  | none =>
    rw [andThen_none] at h
    by_cases hpcs : e'.pcmChunkStarted = true
    · rw [if_pos hpcs] at h
      cases h
      exact ⟨he', hpcs⟩
    · have hpcs' : e'.pcmChunkStarted = false := by simpa using hpcs
      rw [hpcs'] at h
      simp only [Bool.false_eq_true, if_false] at h
      rcases hE : encAdd e' dataFormatID with ⟨e2, o2⟩
      rw [hE] at h
      cases o2 with
      | some msg => simp [andThen] at h
      | none =>
        rw [andThen_none] at h
        rcases hA : addLE32
            { e2 with pcmChunkStarted := true, pcmChunkSizePos := e2.writtenBytes } 42
          with ⟨e3, o3⟩
        rw [hA] at h
        have hf3 := encAdd_fields
          { e2 with pcmChunkStarted := true, pcmChunkSizePos := e2.writtenBytes } (le32c 42)
        have hA' : encAdd
            { e2 with pcmChunkStarted := true, pcmChunkSizePos := e2.writtenBytes }
            (le32c 42) = (e3, o3) := hA
        rw [hA'] at hf3
        have h3pcs : e3.pcmChunkStarted = true := hf3.2.2.2.1
        have h3wh : e3.wroteHeader = e2.wroteHeader := hf3.2.2.1
        have hf2 := encAdd_fields e' dataFormatID
        rw [hE] at hf2
        have h2wh : e2.wroteHeader = e'.wroteHeader := hf2.2.2.1
        cases o3 with
        | some msg => simp [andThen] at h
        | none =>
          rw [andThen_none] at h
          cases h
          refine ⟨?_, h3pcs⟩
          show e3.wroteHeader = true
          rw [h3wh, h2wh, he']

set_option maxHeartbeats 1600000 in
/-- On a fresh encoder over a reliable sink, `writeSetup` emits the
36-byte header plus the data tag and placeholder: 44 bytes in total,
with the placeholder offset 40 recorded and the payload starting at
offset 44. -/
theorem writeSetup_new (s : Sink) (sr bd nc af : Nat) (hrel : Reliable s) :
    ∃ e1 s1, writeSetup (newEncoder s sr bd nc af) = (e1, none) ∧
      e1.wroteHeader = true ∧ e1.pcmChunkStarted = true ∧ e1.writtenBytes = 44 ∧
      e1.pcmChunkSizePos = 40 ∧ e1.pcmChunkPos = 44 ∧ e1.frames = 0 ∧
      e1.metadata = none ∧ e1.bitDepth = bd ∧ e1.numChans = nc ∧
      e1.sampleRate = sr ∧ e1.wavAudioFormat = af ∧
      e1.w = some s1 ∧ Reliable s1 := by
  set ck : List (List Nat) :=
    [riffID, le32c 42, wavFormatID, fmtID, le32c 16, le16c af, le16c nc, le32c sr,
     le32c (sr * (nc * bd / 8)), le16c (nc * bd / 8), le16c bd] with hck
  set E1 : Enc := { newEncoder s sr bd nc af with wroteHeader := true } with hE1
  obtain ⟨sh, hH, hrelH⟩ := addMany_rel ck E1 s rfl hrel
  set E2 : Enc := { E1 with writtenBytes := E1.writtenBytes + sumLens ck, w := some sh }
    with hE2
  obtain ⟨sd, hD, hrelD⟩ := encAdd_rel E2 sh dataFormatID rfl hrelH
  set E3 : Enc := { E2 with writtenBytes := E2.writtenBytes + dataFormatID.length, w := some sd } with hE3
  set E4 : Enc := { E3 with pcmChunkStarted := true, pcmChunkSizePos := E3.writtenBytes }
    with hE4
  obtain ⟨sp, hP, hrelP⟩ := encAdd_rel E4 sd (le32c 42) rfl hrelD
  set E5 : Enc := { E4 with writtenBytes := E4.writtenBytes + (le32c 42).length, w := some sp } with hE5
  refine ⟨{ E5 with pcmChunkPos := E5.writtenBytes }, sp, ?_, rfl, rfl, rfl, rfl, rfl, rfl,
    rfl, rfl, rfl, rfl, rfl, rfl, hrelP⟩
  show andThen (addMany E1 ck) (fun e =>
      if e.pcmChunkStarted then (e, none)
      else
        andThen (encAdd e dataFormatID) (fun e =>
          andThen (addLE32 { e with pcmChunkStarted := true, pcmChunkSizePos := e.writtenBytes } 42) (fun e =>
            ({ e with pcmChunkPos := e.writtenBytes }, none)))) =
    ({ E5 with pcmChunkPos := E5.writtenBytes }, none)
  rw [hH]
  show andThen (encAdd E2 dataFormatID) (fun e =>
      andThen (addLE32 { e with pcmChunkStarted := true, pcmChunkSizePos := e.writtenBytes } 42) (fun e =>
        ({ e with pcmChunkPos := e.writtenBytes }, none))) =
    ({ E5 with pcmChunkPos := E5.writtenBytes }, none)
  rw [hD]
  show andThen (encAdd E4 (le32c 42)) (fun e =>
      ({ e with pcmChunkPos := e.writtenBytes }, none)) =
    ({ E5 with pcmChunkPos := E5.writtenBytes }, none)
  rw [hP]
  rfl

/-- Lemma: `addBuffer` on a present buffer, a supported bit depth and a
reliable sink succeeds, advancing the frame counter by the buffer's
frame count and the byte counter by the encoded length. -/
theorem addBuffer_rel (e : Enc) (s : Sink) (buf : IntBuffer) (pos : Option Nat) (bs : List Nat)
    (hw : e.w = some s) (hrel : Reliable s)
    (henc : encChunks e.bitDepth (bufSamples buf) = some bs) :
    ∃ s1, addBuffer e (some buf) pos =
        ({ e with w := some s1, frames := e.frames + buf.numFrames, writtenBytes := e.writtenBytes + bs.length }, bs.length, none) ∧
      Reliable s1 := by
  cases pos with
  | none =>
    refine ⟨{ data := store s.data s.pos bs, size := max s.size (s.pos + bs.length), pos := s.pos + bs.length, nCalls := s.nCalls + 1, failOn := s.failOn }, ?_, fun i => hrel i⟩
    unfold addBuffer
    show (match encChunks e.bitDepth (bufSamples buf) with
          | none => (e, 0, some "cant add frames of this bit size")
          | some bs =>
            match e.w with
            | none => (e, 0, some "nil writer")
            | some s =>
              match s.write bs with
              | (s1, n, _err) => ({ e with w := some s1, frames := e.frames + buf.numFrames, writtenBytes := e.writtenBytes + n }, n, none)) = _
    rw [henc]
    show (match e.w with
          | none => (e, 0, some "nil writer")
          | some s =>
            match s.write bs with
            | (s1, n, _err) => ({ e with w := some s1, frames := e.frames + buf.numFrames, writtenBytes := e.writtenBytes + n }, n, none)) = _
    rw [hw]
    show (match s.write bs with
          | (s1, n, _err) => ({ e with w := some s1, frames := e.frames + buf.numFrames, writtenBytes := e.writtenBytes + n }, n, none)) = _
    unfold Sink.write
    rw [hrel s.nCalls]
    rfl
  | some p =>
    refine ⟨{ s with data := store s.data (e.pcmChunkPos + p) bs, size := max s.size (e.pcmChunkPos + p + bs.length), nCalls := s.nCalls + 1 }, ?_, fun i => hrel i⟩
    unfold addBuffer
    show (match encChunks e.bitDepth (bufSamples buf) with
          | none => (e, 0, some "cant add frames of this bit size")
          | some bs =>
            match e.w with
            | none => (e, 0, some "nil writer")
            | some s =>
              match s.writeAt bs (e.pcmChunkPos + p) with
              | (s1, n, _err) => ({ e with w := some s1, frames := e.frames + buf.numFrames, writtenBytes := e.writtenBytes + n }, n, none)) = _
    rw [henc]
    show (match e.w with
          | none => (e, 0, some "nil writer")
          | some s =>
            match s.writeAt bs (e.pcmChunkPos + p) with
            | (s1, n, _err) => ({ e with w := some s1, frames := e.frames + buf.numFrames, writtenBytes := e.writtenBytes + n }, n, none)) = _
    rw [hw]
    show (match s.writeAt bs (e.pcmChunkPos + p) with
          | (s1, n, _err) => ({ e with w := some s1, frames := e.frames + buf.numFrames, writtenBytes := e.writtenBytes + n }, n, none)) = _
    unfold Sink.writeAt
    rw [hrel s.nCalls]
    rfl

/-- After a successful setup, `Write` is `addBuffer` in sequential
mode. -/
theorem write_eq_of_setup (e e1 : Enc) (buf : Option IntBuffer)
    (h : writeSetup e = (e1, none)) :
    write e buf = ((addBuffer e1 buf none).1, (addBuffer e1 buf none).2.2) := by
  unfold write
  rw [h]

/-- After a successful setup, `WriteAt` is `addBuffer` in positioned
mode. -/
theorem writeAt_eq_of_setup (e e1 : Enc) (buf : Option IntBuffer) (p : Nat)
    (h : writeSetup e = (e1, none)) :
    writeAt e buf p = addBuffer e1 buf (some p) := by
  unfold writeAt
  rw [h]

/-- For the four supported bit depths, sample serialization always
succeeds and yields `bitDepth/8` bytes per sample. -/
theorem encChunks_total (bd : Nat) (hbd : bd = 8 ∨ bd = 16 ∨ bd = 24 ∨ bd = 32) :
    ∀ vs : List Int, ∃ bs, encChunks bd vs = some bs ∧ bs.length = vs.length * (bd / 8) := by
  intro vs
  induction vs with
  | nil => exact ⟨[], rfl, by simp⟩
  | cons v t ih =>
    obtain ⟨bs, hbs, hlen⟩ := ih
    have hv : ∃ c, encodeSampleBytes bd v = some c ∧ c.length = bd / 8 := by
      rcases hbd with h | h | h | h <;> subst h <;>
        exact ⟨_, rfl, by simp [encodeSampleBytes, leBytes_length]⟩
    obtain ⟨c, hc, hclen⟩ := hv
    refine ⟨c ++ bs, ?_, ?_⟩
    · show (match encodeSampleBytes bd v with
            | none => none
            | some c =>
              match encChunks bd t with
              | none => none
              | some r => some (c ++ r)) = some (c ++ bs)
      rw [hc, hbs]
    · rw [List.length_append, hclen, hlen]
      show bd / 8 + t.length * (bd / 8) = (t.length + 1) * (bd / 8)
      rw [Nat.succ_mul]
      omega

/-- Without metadata, `Close` is just the patch pass. -/
theorem close_nometa (e : Enc) (s : Sink) (hw : e.w = some s) (hm : e.metadata = none) :
    close e = closePatches e := by
  unfold close
  rw [hw]
  show andThen (match e.metadata with
               | none => (e, none)
               | some _ => writeMetadata e) closePatches = closePatches e
  rw [hm]
  rfl

/-- With metadata attached, `Close` emits the LIST chunk (8 bytes of
tag and size plus the payload) and then runs the patch pass on the
grown state. -/
theorem close_meta_red (e : Enc) (s : Sink) (blob : List Nat)
    (hw : e.w = some s) (hrel : Reliable s) (hm : e.metadata = some blob) :
    ∃ sm, Reliable sm ∧
      close e = closePatches { e with writtenBytes := e.writtenBytes + (8 + blob.length), w := some sm } := by
  obtain ⟨sm, hM, hrelM⟩ :=
    addMany_rel [cidList, le32c (encodeInfoChunk e).length, encodeInfoChunk e] e s hw hrel
  refine ⟨sm, hrelM, ?_⟩
  unfold close
  rw [hw]
  show andThen (match e.metadata with
               | none => (e, none)
               | some _ => writeMetadata e) closePatches = _
  rw [hm]
  show andThen (addMany e [cidList, le32c (encodeInfoChunk e).length, encodeInfoChunk e]) closePatches = _
  rw [hM]
  show closePatches { e with writtenBytes := e.writtenBytes + sumLens [cidList, le32c (encodeInfoChunk e).length, encodeInfoChunk e], w := some sm } = _
  have hlen : sumLens [cidList, le32c (encodeInfoChunk e).length, encodeInfoChunk e] =
      8 + blob.length := by
    simp [encodeInfoChunk, hm, sumLens, le32c, leBytes_length, cidList]
    omega
  rw [hlen, hm]

theorem readLE32d_store_out (d : Nat → Nat) (off o2 : Nat) (bs : List Nat)
    (h : off + 4 ≤ o2 ∨ o2 + bs.length ≤ off) :
    readLE32d (store d o2 bs) off = readLE32d d off := by
  unfold readLE32d
  rcases h with h | h
  · rw [store_out bs d o2 off (Or.inl (by omega)),
      store_out bs d o2 (off + 1) (Or.inl (by omega)),
      store_out bs d o2 (off + 2) (Or.inl (by omega)),
      store_out bs d o2 (off + 3) (Or.inl (by omega))]
  · rw [store_out bs d o2 off (Or.inr (by omega)),
      store_out bs d o2 (off + 1) (Or.inr (by omega)),
      store_out bs d o2 (off + 2) (Or.inr (by omega)),
      store_out bs d o2 (off + 3) (Or.inr (by omega))]

theorem readLE32d_store_le32c (d : Nat → Nat) (off v : Nat) :
    readLE32d (store d off (le32c v)) off = v % 4294967296 := by
  unfold le32c
  rw [readLE32d_store]
  omega

/-- The patch pass on a reliable sink, when a data-chunk placeholder
was recorded: both size fields are patched (8 more counted bytes), and
the sink content is the old content overlaid with the two 4-byte
little-endian patches. -/
theorem closePatches_chunk (e : Enc) (s : Sink) (hw : e.w = some s) (hrel : Reliable s)
    (hp : 0 < e.pcmChunkSizePos) :
    ∃ s1, closePatches e = ({ e with writtenBytes := e.writtenBytes + 4 + 4, w := some s1 }, none) ∧
      Reliable s1 ∧
      s1.data = store (store s.data 4 (le32c (e.writtenBytes + 4294967288))) e.pcmChunkSizePos (le32c (e.bitDepth / 8 * e.numChans * e.frames)) ∧
      s1.size = max (max s.size 8) (e.pcmChunkSizePos + 4) := by
  set sA : Sink := { s with pos := 4 } with hsA
  set E1 : Enc := { e with w := some sA } with hE1
  have h1 := encAdd_ok E1 sA (le32c (e.writtenBytes + 4294967288)) rfl (hrel sA.nCalls)
  set sB : Sink := { data := store sA.data sA.pos (le32c (e.writtenBytes + 4294967288)), size := max sA.size (sA.pos + (le32c (e.writtenBytes + 4294967288)).length), pos := sA.pos + (le32c (e.writtenBytes + 4294967288)).length, nCalls := sA.nCalls + 1, failOn := sA.failOn } with hsB
  set E2 : Enc := { E1 with writtenBytes := E1.writtenBytes + (le32c (e.writtenBytes + 4294967288)).length, w := some sB } with hE2
  set sC : Sink := { sB with pos := e.pcmChunkSizePos } with hsC
  set E3 : Enc := { E2 with w := some sC } with hE3
  have h2 := encAdd_ok E3 sC (le32c (e.bitDepth / 8 * e.numChans * e.frames)) rfl (hrel sC.nCalls)
  set sD : Sink := { data := store sC.data sC.pos (le32c (e.bitDepth / 8 * e.numChans * e.frames)), size := max sC.size (sC.pos + (le32c (e.bitDepth / 8 * e.numChans * e.frames)).length), pos := sC.pos + (le32c (e.bitDepth / 8 * e.numChans * e.frames)).length, nCalls := sC.nCalls + 1, failOn := sC.failOn } with hsD
  set E4 : Enc := { E3 with writtenBytes := E3.writtenBytes + (le32c (e.bitDepth / 8 * e.numChans * e.frames)).length, w := some sD } with hE4
  have hp2 : E2.pcmChunkSizePos > 0 := hp
  have hseek : seekEnc e 4 = E1 := by
    unfold seekEnc
    rw [hw]
    rfl
  refine ⟨{ sD with pos := sD.size }, ?_, fun i => hrel i, rfl, rfl⟩
  show andThen (addLE32 (seekEnc e 4) ((seekEnc e 4).writtenBytes + 4294967288)) (fun e =>
      andThen (if e.pcmChunkSizePos > 0 then
                 let e := seekEnc e e.pcmChunkSizePos
                 addLE32 e (e.bitDepth / 8 * e.numChans * e.frames)
               else (e, none)) (fun e =>
        (seekEndEnc e, none))) = _
  rw [hseek]
  show andThen (encAdd E1 (le32c (e.writtenBytes + 4294967288))) (fun e =>
      andThen (if e.pcmChunkSizePos > 0 then
                 let e := seekEnc e e.pcmChunkSizePos
                 addLE32 e (e.bitDepth / 8 * e.numChans * e.frames)
               else (e, none)) (fun e =>
        (seekEndEnc e, none))) = _
  rw [h1]
  show andThen (if E2.pcmChunkSizePos > 0 then
                  let e := seekEnc E2 E2.pcmChunkSizePos
                  addLE32 e (e.bitDepth / 8 * e.numChans * e.frames)
                else (E2, none)) (fun e =>
        (seekEndEnc e, none)) = _
  rw [if_pos hp2]
  show andThen (encAdd E3 (le32c (e.bitDepth / 8 * e.numChans * e.frames))) (fun e =>
        (seekEndEnc e, none)) = _
  rw [h2]
  rfl

/-- The patch pass on a reliable sink when no data chunk was ever
opened: only the RIFF size is patched (4 more counted bytes). -/
theorem closePatches_nochunk (e : Enc) (s : Sink) (hw : e.w = some s) (hrel : Reliable s)
    (hp : e.pcmChunkSizePos = 0) :
    ∃ s1, closePatches e = ({ e with writtenBytes := e.writtenBytes + 4, w := some s1 }, none) ∧
      Reliable s1 ∧
      s1.data = store s.data 4 (le32c (e.writtenBytes + 4294967288)) ∧
      s1.size = max s.size 8 := by
  set sA : Sink := { s with pos := 4 } with hsA
  set E1 : Enc := { e with w := some sA } with hE1
  have h1 := encAdd_ok E1 sA (le32c (e.writtenBytes + 4294967288)) rfl (hrel sA.nCalls)
  set sB : Sink := { data := store sA.data sA.pos (le32c (e.writtenBytes + 4294967288)), size := max sA.size (sA.pos + (le32c (e.writtenBytes + 4294967288)).length), pos := sA.pos + (le32c (e.writtenBytes + 4294967288)).length, nCalls := sA.nCalls + 1, failOn := sA.failOn } with hsB
  set E2 : Enc := { E1 with writtenBytes := E1.writtenBytes + (le32c (e.writtenBytes + 4294967288)).length, w := some sB } with hE2
  have hp2 : ¬ E2.pcmChunkSizePos > 0 := by
    have : E2.pcmChunkSizePos = 0 := hp
    omega
  have hseek : seekEnc e 4 = E1 := by
    unfold seekEnc
    rw [hw]
    rfl
  refine ⟨{ sB with pos := sB.size }, ?_, fun i => hrel i, rfl, rfl⟩
  show andThen (addLE32 (seekEnc e 4) ((seekEnc e 4).writtenBytes + 4294967288)) (fun e =>
      andThen (if e.pcmChunkSizePos > 0 then
                 let e := seekEnc e e.pcmChunkSizePos
                 addLE32 e (e.bitDepth / 8 * e.numChans * e.frames)
               else (e, none)) (fun e =>
        (seekEndEnc e, none))) = _
  rw [hseek]
  show andThen (encAdd E1 (le32c (e.writtenBytes + 4294967288))) (fun e =>
      andThen (if e.pcmChunkSizePos > 0 then
                 let e := seekEnc e e.pcmChunkSizePos
                 addLE32 e (e.bitDepth / 8 * e.numChans * e.frames)
               else (e, none)) (fun e =>
        (seekEndEnc e, none))) = _
  rw [h1]
  show andThen (if E2.pcmChunkSizePos > 0 then
                  let e := seekEnc E2 E2.pcmChunkSizePos
                  addLE32 e (e.bitDepth / 8 * e.numChans * e.frames)
                else (E2, none)) (fun e =>
        (seekEndEnc e, none)) = _
  rw [if_neg hp2]
  rfl

theorem writeStep_ready (e : Enc) (b : IntBuffer) (p : Option Nat)
    (hcr : ChunkReady e)
    (hbd : e.bitDepth = 8 ∨ e.bitDepth = 16 ∨ e.bitDepth = 24 ∨ e.bitDepth = 32) :
    ChunkReady (writeStep e b p) ∧
    (writeStep e b p).frames = e.frames + b.numFrames ∧
    (writeStep e b p).bitDepth = e.bitDepth ∧
    (writeStep e b p).numChans = e.numChans ∧
    (writeStep e b p).pcmChunkSizePos = e.pcmChunkSizePos ∧
    (writeStep e b p).pcmChunkPos = e.pcmChunkPos := by
  obtain ⟨hwh, hpcs, hmeta, s, hw, hrel⟩ := hcr
  obtain ⟨bs, henc, hlen⟩ := encChunks_total e.bitDepth hbd (bufSamples b)
  obtain ⟨s1, hab, hrel1⟩ := addBuffer_rel e s b p bs hw hrel henc
  have hsetup := writeSetup_skip e hwh hpcs
  cases p with
  | none =>
    have hred : writeStep e b none = { e with w := some s1, frames := e.frames + b.numFrames, writtenBytes := e.writtenBytes + bs.length } := by
      show (write e (some b)).1 = _
      rw [write_eq_of_setup e e (some b) hsetup, hab]
    rw [hred]
    exact ⟨⟨hwh, hpcs, hmeta, s1, rfl, hrel1⟩, rfl, rfl, rfl, rfl, rfl⟩
  | some q =>
    have hred : writeStep e b (some q) = { e with w := some s1, frames := e.frames + b.numFrames, writtenBytes := e.writtenBytes + bs.length } := by
      show (writeAt e (some b) q).1 = _
      rw [writeAt_eq_of_setup e e (some b) q hsetup, hab]
    rw [hred]
    exact ⟨⟨hwh, hpcs, hmeta, s1, rfl, hrel1⟩, rfl, rfl, rfl, rfl, rfl⟩

theorem runWrites_ready : ∀ (l : List (IntBuffer × Option Nat)) (e : Enc),
    ChunkReady e →
    (e.bitDepth = 8 ∨ e.bitDepth = 16 ∨ e.bitDepth = 24 ∨ e.bitDepth = 32) →
    ChunkReady (runWrites e l) ∧
    (runWrites e l).frames = e.frames + totalFrames l ∧
    (runWrites e l).bitDepth = e.bitDepth ∧
    (runWrites e l).numChans = e.numChans ∧
    (runWrites e l).pcmChunkSizePos = e.pcmChunkSizePos ∧
    (runWrites e l).pcmChunkPos = e.pcmChunkPos := by
  intro l
  induction l with
  | nil =>
    intro e hcr hbd
    refine ⟨hcr, ?_, rfl, rfl, rfl, rfl⟩
    show e.frames = e.frames + totalFrames []
    simp [totalFrames]
  | cons bp rest ih =>
    intro e hcr hbd
    obtain ⟨h1, h2, h3, h4, h5, h6⟩ := writeStep_ready e bp.1 bp.2 hcr hbd
    obtain ⟨g1, g2, g3, g4, g5, g6⟩ := ih (writeStep e bp.1 bp.2) h1 (by rw [h3]; exact hbd)
    have hrun : runWrites e (bp :: rest) = runWrites (writeStep e bp.1 bp.2) rest := rfl
    rw [hrun]
    refine ⟨g1, ?_, by rw [g3, h3], by rw [g4, h4], by rw [g5, h5], by rw [g6, h6]⟩
    rw [g2, h2]
    have : totalFrames (bp :: rest) = bp.1.numFrames + totalFrames rest := by
      simp [totalFrames]
    omega

theorem mod32_mul_div (bd : Nat) (x : Nat)
    (h : bd = 8 ∨ bd = 16 ∨ bd = 24 ∨ bd = 32) (hb : x * bd / 8 < 4294967296) :
    x * (bd / 8) % 4294967296 = x * bd / 8 := by
  rcases h with h | h | h | h <;> subst h <;> omega

/-- C2: an encoder that wrote `F` frames at bit depth `B` over `C`
channels and closes without sink failure ends with the 32-bit field at
the recorded placeholder offset equal to `F*C*B/8`. -/
theorem c2_data_chunk_size (sr bd nc af : Nat) (s0 : Sink) (l : List (IntBuffer × Option Nat))
    (hrel : Reliable s0) (hbd : bd = 8 ∨ bd = 16 ∨ bd = 24 ∨ bd = 32) (hne : l ≠ [])
    (hbound : totalFrames l * nc * bd / 8 < 4294967296) :
    (close (runWrites (newEncoder s0 sr bd nc af) l)).2 = none ∧
    ∃ s1, ((close (runWrites (newEncoder s0 sr bd nc af) l)).1).w = some s1 ∧
      readLE32 s1 ((runWrites (newEncoder s0 sr bd nc af) l).pcmChunkSizePos) =
        totalFrames l * nc * bd / 8 := by
  rcases l with _ | ⟨bp, rest⟩
  · exact absurd rfl hne
  obtain ⟨e1, s1, hsetup, hwh1, hpcs1, hwb1, hpsz1, hpcp1, hfr1, hmd1, hbd1, hnc1, hsr1,
    haf1, hw1, hrel1⟩ := writeSetup_new s0 sr bd nc af hrel
  obtain ⟨bs, henc, hlenbs⟩ := encChunks_total bd hbd (bufSamples bp.1)
  have henc1 : encChunks e1.bitDepth (bufSamples bp.1) = some bs := by rw [hbd1]; exact henc
  obtain ⟨s2, hab, hrel2⟩ := addBuffer_rel e1 s1 bp.1 bp.2 bs hw1 hrel1 henc1
  set e2 : Enc := { e1 with w := some s2, frames := e1.frames + bp.1.numFrames, writtenBytes := e1.writtenBytes + bs.length } with he2
  have hstep : writeStep (newEncoder s0 sr bd nc af) bp.1 bp.2 = e2 := by
    rcases hq : bp.2 with _ | q
    · rw [hq] at hab
      show (write (newEncoder s0 sr bd nc af) (some bp.1)).1 = e2
      rw [write_eq_of_setup _ e1 _ hsetup, hab]
    · rw [hq] at hab
      show (writeAt (newEncoder s0 sr bd nc af) (some bp.1) q).1 = e2
      rw [writeAt_eq_of_setup _ e1 _ q hsetup, hab]
  have hcr2 : ChunkReady e2 := ⟨hwh1, hpcs1, hmd1, s2, rfl, hrel2⟩
  have hbd2e : e2.bitDepth = bd := hbd1
  have hbd2 : e2.bitDepth = 8 ∨ e2.bitDepth = 16 ∨ e2.bitDepth = 24 ∨ e2.bitDepth = 32 := by
    rw [hbd2e]; exact hbd
  obtain ⟨gc, gf, gb, gn, gp, gq⟩ := runWrites_ready rest e2 hcr2 hbd2
  have hrunEq : runWrites (newEncoder s0 sr bd nc af) (bp :: rest) =
      runWrites e2 rest := by
    show runWrites (writeStep (newEncoder s0 sr bd nc af) bp.1 bp.2) rest = _
    rw [hstep]
  obtain ⟨gwh, gpcs, gmd, sF, gw, grelF⟩ := gc
  have hENpsz : (runWrites e2 rest).pcmChunkSizePos = 40 := by rw [gp]; exact hpsz1
  have hclose1 : close (runWrites e2 rest) = closePatches (runWrites e2 rest) :=
    close_nometa _ sF gw gmd
  obtain ⟨sZ, hcp, hrelZ, hdata, hsize⟩ :=
    closePatches_chunk (runWrites e2 rest) sF gw grelF (by rw [hENpsz]; norm_num)
  rw [hrunEq, hclose1, hcp]
  refine ⟨rfl, sZ, rfl, ?_⟩
  rw [readLE32_eq, hdata, hENpsz]
  have hdata40 : readLE32d (store (store sF.data 4 (le32c ((runWrites e2 rest).writtenBytes + 4294967288))) 40 (le32c ((runWrites e2 rest).bitDepth / 8 * (runWrites e2 rest).numChans * (runWrites e2 rest).frames))) 40 =
      ((runWrites e2 rest).bitDepth / 8 * (runWrites e2 rest).numChans * (runWrites e2 rest).frames) % 4294967296 :=
    readLE32d_store_le32c _ 40 _
  rw [hdata40]
  have hENbd : (runWrites e2 rest).bitDepth = bd := by rw [gb]; exact hbd2e
  have hENnc : (runWrites e2 rest).numChans = nc := by rw [gn]; exact hnc1
  have hENfr : (runWrites e2 rest).frames = totalFrames (bp :: rest) := by
    rw [gf]
    have h2f : e2.frames = 0 + bp.1.numFrames := by
      show e1.frames + bp.1.numFrames = 0 + bp.1.numFrames
      rw [hfr1]
    have hTF : totalFrames (bp :: rest) = bp.1.numFrames + totalFrames rest := by
      simp [totalFrames]
    omega
  rw [hENbd, hENnc, hENfr]
  have hassoc : bd / 8 * nc * totalFrames (bp :: rest) =
      totalFrames (bp :: rest) * nc * (bd / 8) := by ring
  rw [hassoc]
  have hassoc2 : totalFrames (bp :: rest) * nc * (bd / 8) =
      (totalFrames (bp :: rest) * nc) * (bd / 8) := by ring
  rw [hassoc2]
  rw [mod32_mul_div bd (totalFrames (bp :: rest) * nc) hbd hbound]

theorem andThen_fst_pres (P : Enc → Prop) (r : Enc × Option String)
    (f : Enc → Enc × Option String) (hr : P r.1) (hf : ∀ x, P x → P ((f x).1)) :
    P ((andThen r f).1) := by
  rcases r with ⟨e', o⟩
  cases o with
  | none => exact hf e' hr
  | some msg => exact hr

/-- Lemma: `writeHeader` never touches the frame counter and never shrinks the
byte counter. -/
theorem writeHeader_pres (e : Enc) :
    ((writeHeader e).1).frames = e.frames ∧ e.writtenBytes ≤ ((writeHeader e).1).writtenBytes := by
  obtain ⟨w, sr, bd, nc, af, md, wb, fr, pcs, pszp, pcp, wh⟩ := e
  cases wh with
  | true => exact ⟨rfl, Nat.le_refl _⟩
  | false =>
    cases w with
    | none => exact ⟨rfl, Nat.le_refl _⟩
    | some s =>
      show ((if wb > 0 then _ else _ : Enc × Option String).1).frames = fr ∧
        wb ≤ ((if wb > 0 then _ else _ : Enc × Option String).1).writtenBytes
      split
      · exact ⟨rfl, Nat.le_refl _⟩
      · constructor
        · exact (addMany_pres _ _).2.1
        · refine le_trans ?_ ((addMany_pres _ _).1)
          exact Nat.le_refl _

/-- Lemma: `writeSetup` never touches the frame counter and never shrinks the
byte counter, on every path including errors. -/
theorem writeSetup_pres (e : Enc) :
    ((writeSetup e).1).frames = e.frames ∧ e.writtenBytes ≤ ((writeSetup e).1).writtenBytes := by
  unfold writeSetup
  refine andThen_fst_pres (fun y : Enc => y.frames = e.frames ∧ e.writtenBytes ≤ y.writtenBytes)
    _ _ ?_ ?_
  · by_cases hwh : e.wroteHeader = true
    · rw [if_pos hwh]
      exact ⟨rfl, Nat.le_refl _⟩
    · have h' : e.wroteHeader = false := by simpa using hwh
      rw [h']
      simp only [Bool.false_eq_true, if_false]
      exact writeHeader_pres e
  · intro x hx
    show (fun y : Enc => y.frames = e.frames ∧ e.writtenBytes ≤ y.writtenBytes)
      ((if x.pcmChunkStarted = true then (x, none)
        else andThen (encAdd x dataFormatID) (fun e =>
          andThen (addLE32 { e with pcmChunkStarted := true, pcmChunkSizePos := e.writtenBytes } 42) (fun e =>
            ({ e with pcmChunkPos := e.writtenBytes }, none)))).1)
    by_cases hpcs : x.pcmChunkStarted = true
    · rw [if_pos hpcs]
      exact hx
    · have h' : x.pcmChunkStarted = false := by simpa using hpcs
      rw [h']
      simp only [Bool.false_eq_true, if_false]
      refine andThen_fst_pres (fun y : Enc => y.frames = e.frames ∧ e.writtenBytes ≤ y.writtenBytes)
        _ _ ?_ ?_
      · have hf := encAdd_fields x dataFormatID
        refine ⟨by rw [hf.2.1, hx.1], ?_⟩
        have h1 := hf.1
        have h2 := hx.2
        omega
      · intro y hy
        refine andThen_fst_pres (fun z : Enc => z.frames = e.frames ∧ e.writtenBytes ≤ z.writtenBytes)
          _ _ ?_ ?_
        · have hf := encAdd_fields
            { y with pcmChunkStarted := true, pcmChunkSizePos := y.writtenBytes } (le32c 42)
          have g1 : (addLE32 { y with pcmChunkStarted := true, pcmChunkSizePos := y.writtenBytes } 42).1.frames = y.frames := hf.2.1
          have g2 : (addLE32 { y with pcmChunkStarted := true, pcmChunkSizePos := y.writtenBytes } 42).1.writtenBytes = y.writtenBytes + (le32c 42).length := hf.1
          refine ⟨by rw [g1, hy.1], ?_⟩
          have h2 := hy.2
          omega
        · intro z hz
          exact ⟨hz.1, hz.2⟩

/-- C1: the code drops the sink error of the payload write.  On a sink
that fails exactly the PCM payload write call, the header emission
succeeds (13 calls, 44 bytes stored), the 14th write call fails (the
sink stays at 44 bytes and counts 14 calls, and the byte counter gains
nothing), yet `Write` returns no error and the frame counter advances
anyway: `addBuffer` assigns the sink error to `err` and then returns
`nil`. -/
theorem c1_sink_error_dropped :
    (write tFail (some sBuf)).2 = none ∧
    ((write tFail (some sBuf)).1).frames = 1 ∧
    ((write tFail (some sBuf)).1).writtenBytes = 44 ∧
    (sinkOf ((write tFail (some sBuf)).1)).size = 44 ∧
    (sinkOf ((write tFail (some sBuf)).1)).nCalls = 14 ∧
    (sinkOf ((write tEnc0 (some sBuf)).1)).size = 46 := by
  decide

/-- C4 (counterexample): on a fresh encoder a nil-buffer `Write` does
return an error, but the byte counter advances from 0 to 44, because
the lazy header and data-chunk emission run before the nil check. -/
theorem c4_counterexample :
    (write tEnc0 none).2.isSome = true ∧
    ((write tEnc0 none).1).writtenBytes = 44 ∧
    tEnc0.writtenBytes = 0 := by
  decide

/-- C4 (amended): a nil buffer passed to `Write` or `WriteAt` always
returns an error and never changes the frame counter; the byte counter
is unchanged too once the header and data chunk have already been
emitted (on a fresh encoder the lazy setup still advances it). -/
theorem c4_nil_buffer (e : Enc) (p : Nat) :
    ((write e none).2.isSome = true ∧ ((write e none).1).frames = e.frames) ∧
    ((writeAt e none p).2.2.isSome = true ∧ ((writeAt e none p).1).frames = e.frames) ∧
    (e.wroteHeader = true → e.pcmChunkStarted = true →
      write e none = (e, some "cant add a nil buffer") ∧
      writeAt e none p = (e, 0, some "cant add a nil buffer")) := by
  have hset := writeSetup_pres e
  refine ⟨?_, ?_, ?_⟩
  · rcases hs : writeSetup e with ⟨e', o⟩
    rw [hs] at hset
    cases o with
    | some msg =>
      have hred : write e none = (e', some msg) := by
        unfold write
        rw [hs]
      rw [hred]
      exact ⟨rfl, hset.1⟩
    | none =>
      have hred : write e none = (e', some "cant add a nil buffer") := by
        unfold write
        rw [hs]
        rfl
      rw [hred]
      exact ⟨rfl, hset.1⟩
  · rcases hs : writeSetup e with ⟨e', o⟩
    rw [hs] at hset
    cases o with
    | some msg =>
      have hred : writeAt e none p = (e', 0, some msg) := by
        unfold writeAt
        rw [hs]
      rw [hred]
      exact ⟨rfl, hset.1⟩
    | none =>
      have hred : writeAt e none p = (e', 0, some "cant add a nil buffer") := by
        unfold writeAt
        rw [hs]
        rfl
      rw [hred]
      exact ⟨rfl, hset.1⟩
  · intro h1 h2
    have hs := writeSetup_skip e h1 h2
    constructor
    · unfold write
      rw [hs]
      rfl
    · unfold writeAt
      rw [hs]
      rfl

/-- C5 (counterexample): `Close` on an untouched encoder with a non-nil
sink returns no error, but it does write: the sink ends 8 bytes long
(the 4-byte RIFF-size patch at offset 4 over a zero hole), not
empty. -/
theorem c5_counterexample :
    (close tEnc0).2 = none ∧ (sinkOf ((close tEnc0).1)).size = 8 := by
  decide

/-- C5 (amended): `Close` on an untouched encoder with a non-nil
reliable sink returns no error, but still performs the RIFF-size patch:
4 bytes are counted, the sink grows to 8 bytes, and the field at offset
4 holds `(0 - 8) mod 2^32 = 4294967288`. -/
theorem c5_close_untouched (sr bd nc af : Nat) (s : Sink) (hsz : s.size = 0)
    (hrel : Reliable s) :
    (close (newEncoder s sr bd nc af)).2 = none ∧
    ((close (newEncoder s sr bd nc af)).1).writtenBytes = 4 ∧
    ∃ s1, ((close (newEncoder s sr bd nc af)).1).w = some s1 ∧ s1.size = 8 ∧
      readLE32 s1 4 = 4294967288 := by
  have hclose : close (newEncoder s sr bd nc af) = closePatches (newEncoder s sr bd nc af) :=
    close_nometa _ s rfl rfl
  obtain ⟨s1, hcp, hrel1, hdata, hsize⟩ :=
    closePatches_nochunk (newEncoder s sr bd nc af) s rfl hrel rfl
  rw [hclose, hcp]
  refine ⟨rfl, rfl, s1, rfl, ?_, ?_⟩
  · rw [hsize, hsz]
    decide
  · rw [readLE32_eq, hdata, readLE32d_store_le32c]
    show (0 + 4294967288) % 4294967296 = 4294967288
    norm_num

/-- C6 (counterexample): after one write and a successful `Close`, a
second `Close` returns no error (not a usage error) and patches the
size fields again: the RIFF-size field at offset 4 changes from 38 to
46, because the first `Close` itself advanced the byte counter by 8. -/
theorem c6_counterexample :
    (close ((close tEnc1).1)).2 = none ∧
    readLE32 (sinkOf ((close tEnc1).1)) 4 = 38 ∧
    readLE32 (sinkOf ((close ((close tEnc1).1)).1)) 4 = 46 := by
  decide

/-- C6 (amended): `Close` records no closed flag, so re-finalizing is
not an error and the size fields are patched on every `Close`: a second
`Close` succeeds and overwrites the RIFF size field with a value 8
larger than the first patch wrote. -/
theorem c6_double_close (e : Enc) (s : Sink) (hw : e.w = some s) (hrel : Reliable s)
    (hmeta : e.metadata = none) (hpsz : 8 ≤ e.pcmChunkSizePos) (hwb : 8 ≤ e.writtenBytes)
    (hbound : e.writtenBytes + 8 < 4294967296) :
    ∃ s1 s2, close e = ({ e with writtenBytes := e.writtenBytes + 4 + 4, w := some s1 }, none) ∧
      close { e with writtenBytes := e.writtenBytes + 4 + 4, w := some s1 } =
        ({ e with writtenBytes := e.writtenBytes + 4 + 4 + 4 + 4, w := some s2 }, none) ∧
      readLE32 s1 4 = e.writtenBytes - 8 ∧
      readLE32 s2 4 = e.writtenBytes := by
  have hc1 : close e = closePatches e := close_nometa e s hw hmeta
  obtain ⟨s1, hcp1, hrel1, hdata1, hsize1⟩ := closePatches_chunk e s hw hrel (by omega)
  set e1 : Enc := { e with writtenBytes := e.writtenBytes + 4 + 4, w := some s1 } with he1
  have hmeta1 : e1.metadata = none := hmeta
  have hc2 : close e1 = closePatches e1 := close_nometa e1 s1 rfl hmeta1
  have hpsz1 : 0 < e1.pcmChunkSizePos := by
    have h : e1.pcmChunkSizePos = e.pcmChunkSizePos := rfl
    omega
  obtain ⟨s2, hcp2, hrel2, hdata2, hsize2⟩ := closePatches_chunk e1 s1 rfl hrel1 hpsz1
  refine ⟨s1, s2, ?_, ?_, ?_, ?_⟩
  · rw [hc1, hcp1]
  · rw [hc2, hcp2]
  · rw [readLE32_eq, hdata1,
      readLE32d_store_out _ 4 e.pcmChunkSizePos _ (Or.inl (by omega)),
      readLE32d_store_le32c]
    omega
  · have hpsz8 : 4 + 4 ≤ e1.pcmChunkSizePos := by
      have h : e1.pcmChunkSizePos = e.pcmChunkSizePos := rfl
      omega
    rw [readLE32_eq, hdata2,
      readLE32d_store_out _ 4 e1.pcmChunkSizePos _ (Or.inl hpsz8),
      readLE32d_store_le32c]
    have hwb1 : e1.writtenBytes = e.writtenBytes + 4 + 4 := rfl
    omega

/-- C3: `Close` without sink failure leaves the 32-bit RIFF size field
at offset 4 equal to the total bytes written minus 8, where the
metadata bytes (LIST tag, size field, payload) emitted at finalize are
included in that total. -/
theorem c3_riff_size (e : Enc) (s : Sink) (hw : e.w = some s) (hrel : Reliable s)
    (hp : e.pcmChunkSizePos = 0 ∨ 8 ≤ e.pcmChunkSizePos)
    (h8 : 8 ≤ e.writtenBytes)
    (hbound : e.writtenBytes + metaBytes e.metadata < 4294967296) :
    (close e).2 = none ∧
    ∃ s1, ((close e).1).w = some s1 ∧
      readLE32 s1 4 = e.writtenBytes + metaBytes e.metadata - 8 := by
  rcases hm : e.metadata with _ | blob
  · rw [hm] at hbound
    simp only [metaBytes] at hbound
    have hclose : close e = closePatches e := close_nometa e s hw hm
    simp only [metaBytes]
    rcases hp with hp0 | hp8
    · obtain ⟨s1, hcp, hrel1, hdata, hsize⟩ := closePatches_nochunk e s hw hrel hp0
      rw [hclose, hcp]
      refine ⟨rfl, s1, rfl, ?_⟩
      rw [readLE32_eq, hdata, readLE32d_store_le32c]
      omega
    · obtain ⟨s1, hcp, hrel1, hdata, hsize⟩ := closePatches_chunk e s hw hrel (by omega)
      rw [hclose, hcp]
      refine ⟨rfl, s1, rfl, ?_⟩
      rw [readLE32_eq, hdata,
        readLE32d_store_out _ 4 e.pcmChunkSizePos _ (Or.inl (by omega)),
        readLE32d_store_le32c]
      omega
  · rw [hm] at hbound
    simp only [metaBytes] at hbound
    obtain ⟨sm, hrelm, hred⟩ := close_meta_red e s blob hw hrel hm
    simp only [metaBytes]
    set em : Enc := { e with writtenBytes := e.writtenBytes + (8 + blob.length), w := some sm } with hem
    have hwbm : em.writtenBytes = e.writtenBytes + (8 + blob.length) := rfl
    rcases hp with hp0 | hp8
    · have hp0m : em.pcmChunkSizePos = 0 := hp0
      obtain ⟨s1, hcp, hrel1, hdata, hsize⟩ := closePatches_nochunk em sm rfl hrelm hp0m
      rw [hred, hcp]
      refine ⟨rfl, s1, rfl, ?_⟩
      rw [readLE32_eq, hdata, readLE32d_store_le32c]
      omega
    · have hp8m : 4 + 4 ≤ em.pcmChunkSizePos := by
        have h : em.pcmChunkSizePos = e.pcmChunkSizePos := rfl
        omega
      obtain ⟨s1, hcp, hrel1, hdata, hsize⟩ := closePatches_chunk em sm rfl hrelm (by omega)
      rw [hred, hcp]
      refine ⟨rfl, s1, rfl, ?_⟩
      rw [readLE32_eq, hdata,
        readLE32d_store_out _ 4 em.pcmChunkSizePos _ (Or.inl hp8m),
        readLE32d_store_le32c]
      omega

theorem length_flatMap_const {α : Type} (C : Nat) (f : Nat → List α)
    (h : ∀ i, (f i).length = C) :
    ∀ l : List Nat, (l.flatMap f).length = l.length * C := by
  intro l
  induction l with
  | nil => simp
  | cons a t ih =>
    rw [List.flatMap_cons, List.length_append, h, ih]
    rw [List.length_cons, Nat.succ_mul]
    omega

theorem flatMap_const_getD {α : Type} (d : α) (C : Nat) (f : Nat → List α)
    (hC : ∀ i, (f i).length = C) :
    ∀ (l : List Nat) (k x : Nat), k < l.length → x < C →
      (l.flatMap f).getD (k * C + x) d = (f (l.getD k 0)).getD x d := by
  intro l
  induction l with
  | nil => intro k x hk hx; simp at hk
  | cons a t ih =>
    intro k x hk hx
    rw [List.flatMap_cons]
    match k with
    | 0 =>
      rw [Nat.zero_mul, Nat.zero_add, List.getD_append _ _ _ _ (by rw [hC]; exact hx)]
      rfl
    | k + 1 =>
      have hidx : (k + 1) * C + x = (f a).length + (k * C + x) := by
        rw [hC, Nat.succ_mul]
        omega
      rw [hidx, List.getD_append_right _ _ _ _ (by omega)]
      have hsub : (f a).length + (k * C + x) - (f a).length = k * C + x := by omega
      rw [hsub]
      have hk' : k < t.length := by simpa using hk
      rw [ih k x hk' hx]
      rfl

theorem bufSamples_length (b : IntBuffer) :
    (bufSamples b).length = b.numFrames * b.numChannels := by
  unfold bufSamples
  rw [length_flatMap_const b.numChannels _
    (fun i => by rw [List.length_map, List.length_range]) (List.range b.numFrames),
    List.length_range]

theorem bufSamples_getD (b : IntBuffer) (i j : Nat)
    (hi : i < b.numFrames) (hj : j < b.numChannels) :
    (bufSamples b).getD (i * b.numChannels + j) 0 = b.data.getD (i * b.numChannels + j) 0 := by
  unfold bufSamples
  rw [flatMap_const_getD 0 b.numChannels _ (fun t => by simp) (List.range b.numFrames) i j
    (by simpa using hi) hj]
  have hri : (List.range b.numFrames).getD i 0 = i := by
    rw [List.getD_eq_getElem _ _ (by simpa using hi)]
    simp
  rw [hri]
  have hlen : ((List.range b.numChannels).map
      (fun j => b.data.getD (i * b.numChannels + j) 0)).length = b.numChannels := by simp
  rw [List.getD_eq_getElem _ _ (by rw [hlen]; exact hj)]
  simp

theorem encChunks_slice (bd w : Nat)
    (hwd : ∀ v : Int, ∀ c, encodeSampleBytes bd v = some c → c.length = w) :
    ∀ vs bs, encChunks bd vs = some bs → ∀ k, k < vs.length →
      (bs.drop (k * w)).take w = (encodeSampleBytes bd (vs.getD k 0)).getD [] := by
  intro vs
  induction vs with
  | nil => intro bs h k hk; simp at hk
  | cons v t ih =>
    intro bs h k hk
    have h' : (match encodeSampleBytes bd v with
               | none => none
               | some c =>
                 match encChunks bd t with
                 | none => none
                 | some r => some (c ++ r)) = some bs := h
    rcases hc : encodeSampleBytes bd v with _ | c
    · rw [hc] at h'
      exact absurd h' (by simp)
    · rw [hc] at h'
      rcases hr : encChunks bd t with _ | r
      · rw [hr] at h'
        exact absurd h' (by simp)
      · rw [hr] at h'
        have hbs : bs = c ++ r := by
          injection h' with h''
          exact h''.symm
        subst hbs
        have hcw : c.length = w := hwd v c hc
        match k with
        | 0 =>
          rw [Nat.zero_mul, List.drop_zero, ← hcw, List.take_left]
          rw [List.getD_cons_zero, hc]
          rfl
        | k + 1 =>
          have hidx : (k + 1) * w = c.length + k * w := by
            rw [hcw, Nat.succ_mul]
            omega
          rw [hidx, List.drop_append]
          have hk' : k < t.length := by simpa using hk
          rw [List.getD_cons_succ]
          exact ih r hr k hk'

/-- C7: serializing a buffer of `N` frames and `C` channels at a
supported bit depth yields exactly `N*C*bitDepth/8` bytes, with the
bytes of sample `Data[i*C+j]` (frame `i`, channel `j`) occupying the
`(i*C+j)`-th block of `bitDepth/8` bytes (interleaved per frame in
channel order, little-endian within each sample); in particular at bit
depth 24 the single sample 1 encodes to the bytes 01 00 00. -/
theorem c7_encoding_shape (buf : IntBuffer) (bd : Nat)
    (hbd : bd = 8 ∨ bd = 16 ∨ bd = 24 ∨ bd = 32) :
    ∃ bs, encChunks bd (bufSamples buf) = some bs ∧
      bs.length = buf.numFrames * buf.numChannels * bd / 8 ∧
      (∀ i j, i < buf.numFrames → j < buf.numChannels →
        (bs.drop ((i * buf.numChannels + j) * (bd / 8))).take (bd / 8) =
          (encodeSampleBytes bd (buf.data.getD (i * buf.numChannels + j) 0)).getD []) ∧
      encChunks 24 (bufSamples ⟨1, [1]⟩) = some [1, 0, 0] := by
  obtain ⟨bs, henc, hlen⟩ := encChunks_total bd hbd (bufSamples buf)
  have hwd : ∀ v : Int, ∀ c, encodeSampleBytes bd v = some c → c.length = bd / 8 := by
    intro v c hc
    rcases hbd with h | h | h | h <;> subst h <;>
      (injection hc with h'; rw [← h']; simp [leBytes_length])
  refine ⟨bs, henc, ?_, ?_, by decide⟩
  · rw [hlen, bufSamples_length]
    have : ∀ x : Nat, x * (bd / 8) = x * bd / 8 := by
      intro x
      rcases hbd with h | h | h | h <;> subst h <;> omega
    exact this _
  · intro i j hi hj
    have hk : i * buf.numChannels + j < (bufSamples buf).length := by
      rw [bufSamples_length]
      have h1 : i * buf.numChannels + j < (i + 1) * buf.numChannels := by
        rw [Nat.succ_mul]
        omega
      have h2 : (i + 1) * buf.numChannels ≤ buf.numFrames * buf.numChannels :=
        Nat.mul_le_mul_right _ hi
      omega
    rw [encChunks_slice bd (bd / 8) hwd (bufSamples buf) bs henc _ hk,
      bufSamples_getD buf i j hi hj]

/-- Fully explicit form of a successful positioned `addBuffer`. -/
theorem addBuffer_at_ok (e : Enc) (s : Sink) (buf : IntBuffer) (p : Nat) (bs : List Nat)
    (hw : e.w = some s) (hok : s.failOn s.nCalls = false)
    (henc : encChunks e.bitDepth (bufSamples buf) = some bs) :
    addBuffer e (some buf) (some p) =
      ({ e with w := some { s with data := store s.data (e.pcmChunkPos + p) bs, size := max s.size (e.pcmChunkPos + p + bs.length), nCalls := s.nCalls + 1 }, frames := e.frames + buf.numFrames, writtenBytes := e.writtenBytes + bs.length }, bs.length, none) := by
  unfold addBuffer
  show (match encChunks e.bitDepth (bufSamples buf) with
        | none => (e, 0, some "cant add frames of this bit size")
        | some bs =>
          match e.w with
          | none => (e, 0, some "nil writer")
          | some s =>
            match s.writeAt bs (e.pcmChunkPos + p) with
            | (s1, n, _err) => ({ e with w := some s1, frames := e.frames + buf.numFrames, writtenBytes := e.writtenBytes + n }, n, none)) = _
  rw [henc]
  show (match e.w with
        | none => (e, 0, some "nil writer")
        | some s =>
          match s.writeAt bs (e.pcmChunkPos + p) with
          | (s1, n, _err) => ({ e with w := some s1, frames := e.frames + buf.numFrames, writtenBytes := e.writtenBytes + n }, n, none)) = _
  rw [hw]
  show (match s.writeAt bs (e.pcmChunkPos + p) with
        | (s1, n, _err) => ({ e with w := some s1, frames := e.frames + buf.numFrames, writtenBytes := e.writtenBytes + n }, n, none)) = _
  unfold Sink.writeAt
  rw [hok]
  rfl

/-- C8: two positioned writes to disjoint payload ranges commute: both
orders produce the same final encoder state (in particular the same
sink bytes), and each payload lands at `pcmChunkPos + offset`
independently of the other. -/
theorem c8_writeAt_comm (e e1 : Enc) (s : Sink) (b1 b2 : IntBuffer) (p1 p2 : Nat)
    (bs1 bs2 : List Nat)
    (hsetup : writeSetup e = (e1, none))
    (hw : e1.w = some s) (hrel : Reliable s)
    (henc1 : encChunks e1.bitDepth (bufSamples b1) = some bs1)
    (henc2 : encChunks e1.bitDepth (bufSamples b2) = some bs2)
    (hdisj : p1 + bs1.length ≤ p2 ∨ p2 + bs2.length ≤ p1) :
    (writeAt (writeAt e (some b1) p1).1 (some b2) p2).1 =
      (writeAt (writeAt e (some b2) p2).1 (some b1) p1).1 ∧
    (∀ k, k < bs1.length →
      (sinkOf (writeAt (writeAt e (some b1) p1).1 (some b2) p2).1).data (e1.pcmChunkPos + p1 + k) = bs1.getD k 0) ∧
    (∀ k, k < bs2.length →
      (sinkOf (writeAt (writeAt e (some b1) p1).1 (some b2) p2).1).data (e1.pcmChunkPos + p2 + k) = bs2.getD k 0) := by
  obtain ⟨hwh1, hpcs1⟩ := writeSetup_done e e1 hsetup
  set o1 : Nat := e1.pcmChunkPos + p1 with ho1
  set o2 : Nat := e1.pcmChunkPos + p2 with ho2
  have hdisj' : o1 + bs1.length ≤ o2 ∨ o2 + bs2.length ≤ o1 := by
    rcases hdisj with h | h
    · exact Or.inl (by omega)
    · exact Or.inr (by omega)
  set s2 : Sink := { s with data := store s.data o1 bs1, size := max s.size (o1 + bs1.length), nCalls := s.nCalls + 1 } with hs2
  set E2 : Enc := { e1 with w := some s2, frames := e1.frames + b1.numFrames, writtenBytes := e1.writtenBytes + bs1.length } with hE2
  have hA1 : writeAt e (some b1) p1 = (E2, bs1.length, none) := by
    rw [writeAt_eq_of_setup e e1 (some b1) p1 hsetup]
    exact addBuffer_at_ok e1 s b1 p1 bs1 hw (hrel s.nCalls) henc1
  have hsk2 : writeSetup E2 = (E2, none) := writeSetup_skip E2 hwh1 hpcs1
  set sL : Sink := { s2 with data := store s2.data o2 bs2, size := max s2.size (o2 + bs2.length), nCalls := s2.nCalls + 1 } with hsL
  set EL : Enc := { E2 with w := some sL, frames := E2.frames + b2.numFrames, writtenBytes := E2.writtenBytes + bs2.length } with hEL
  have hA2 : writeAt E2 (some b2) p2 = (EL, bs2.length, none) := by
    rw [writeAt_eq_of_setup E2 E2 (some b2) p2 hsk2]
    exact addBuffer_at_ok E2 s2 b2 p2 bs2 rfl (hrel (s.nCalls + 1)) henc2
  set s3 : Sink := { s with data := store s.data o2 bs2, size := max s.size (o2 + bs2.length), nCalls := s.nCalls + 1 } with hs3
  set E3 : Enc := { e1 with w := some s3, frames := e1.frames + b2.numFrames, writtenBytes := e1.writtenBytes + bs2.length } with hE3
  have hB1 : writeAt e (some b2) p2 = (E3, bs2.length, none) := by
    rw [writeAt_eq_of_setup e e1 (some b2) p2 hsetup]
    exact addBuffer_at_ok e1 s b2 p2 bs2 hw (hrel s.nCalls) henc2
  have hsk3 : writeSetup E3 = (E3, none) := writeSetup_skip E3 hwh1 hpcs1
  set sR : Sink := { s3 with data := store s3.data o1 bs1, size := max s3.size (o1 + bs1.length), nCalls := s3.nCalls + 1 } with hsR
  set ER : Enc := { E3 with w := some sR, frames := E3.frames + b1.numFrames, writtenBytes := E3.writtenBytes + bs1.length } with hER
  have hB2 : writeAt E3 (some b1) p1 = (ER, bs1.length, none) := by
    rw [writeAt_eq_of_setup E3 E3 (some b1) p1 hsk3]
    exact addBuffer_at_ok E3 s3 b1 p1 bs1 rfl (hrel (s.nCalls + 1)) henc1
  have hLred : (writeAt (writeAt e (some b1) p1).1 (some b2) p2).1 = EL := by
    rw [hA1]
    show (writeAt E2 (some b2) p2).1 = EL
    rw [hA2]
  have hRred : (writeAt (writeAt e (some b2) p2).1 (some b1) p1).1 = ER := by
    rw [hB1]
    show (writeAt E3 (some b1) p1).1 = ER
    rw [hB2]
  rw [hLred, hRred]
  have hsink : sL = sR := by
    apply Sink.ext
    · show store (store s.data o1 bs1) o2 bs2 = store (store s.data o2 bs2) o1 bs1
      exact store_comm s.data o1 o2 bs1 bs2 hdisj'
    · show max (max s.size (o1 + bs1.length)) (o2 + bs2.length) =
        max (max s.size (o2 + bs2.length)) (o1 + bs1.length)
      omega
    · rfl
    · rfl
    · rfl
  refine ⟨?_, ?_, ?_⟩
  · apply Enc.ext
    · show some sL = some sR
      rw [hsink]
    · rfl
    · rfl
    · rfl
    · rfl
    · rfl
    · show e1.writtenBytes + bs1.length + bs2.length = e1.writtenBytes + bs2.length + bs1.length
      omega
    · show e1.frames + b1.numFrames + b2.numFrames = e1.frames + b2.numFrames + b1.numFrames
      omega
    · rfl
    · rfl
    · rfl
    · rfl
  · intro k hk
    show store (store s.data o1 bs1) o2 bs2 (o1 + k) = bs1.getD k 0
    rw [store_out bs2 _ o2 (o1 + k)
      (by rcases hdisj' with h | h
          · exact Or.inl (by omega)
          · exact Or.inr (by omega))]
    exact store_get bs1 s.data o1 k hk
  · intro k hk
    show store (store s.data o1 bs1) o2 bs2 (o2 + k) = bs2.getD k 0
    exact store_get bs2 _ o2 k hk

theorem addBuffer_pres (e : Enc) (buf : Option IntBuffer) (pos : Option Nat) :
    e.frames ≤ ((addBuffer e buf pos).1).frames ∧
    e.writtenBytes ≤ ((addBuffer e buf pos).1).writtenBytes := by
  unfold addBuffer
  repeat' split
  all_goals
    first
    | exact ⟨Nat.le_refl _, Nat.le_refl _⟩
    | exact ⟨Nat.le_add_right _ _, Nat.le_add_right _ _⟩

theorem writeFrame_pres (e : Enc) (v : List Nat) :
    e.frames ≤ ((writeFrame e v).1).frames ∧
    e.writtenBytes ≤ ((writeFrame e v).1).writtenBytes := by
  have hbase : e.frames ≤ (if e.wroteHeader then e else (writeHeader e).1).frames ∧
      e.writtenBytes ≤ (if e.wroteHeader then e else (writeHeader e).1).writtenBytes := by
    split
    · exact ⟨Nat.le_refl _, Nat.le_refl _⟩
    · have h := writeHeader_pres e
      exact ⟨le_of_eq h.1.symm, h.2⟩
  have main : ∀ e' : Enc, e.frames ≤ e'.frames → e.writtenBytes ≤ e'.writtenBytes →
      e.frames ≤ ((andThen (if e'.pcmChunkStarted then (e', none)
          else andThen (encAdd e' dataFormatID) (fun x =>
            addLE32 { x with pcmChunkStarted := true, pcmChunkSizePos := x.writtenBytes } 42))
        (fun x => encAdd { x with frames := x.frames + 1 } v)).1).frames ∧
      e.writtenBytes ≤ ((andThen (if e'.pcmChunkStarted then (e', none)
          else andThen (encAdd e' dataFormatID) (fun x =>
            addLE32 { x with pcmChunkStarted := true, pcmChunkSizePos := x.writtenBytes } 42))
        (fun x => encAdd { x with frames := x.frames + 1 } v)).1).writtenBytes := by
    intro e' h1 h2
    refine andThen_fst_pres (fun x => e.frames ≤ x.frames ∧ e.writtenBytes ≤ x.writtenBytes)
      _ _ ?_ ?_
    · split
      · exact ⟨h1, h2⟩
      · refine andThen_fst_pres (fun x => e.frames ≤ x.frames ∧ e.writtenBytes ≤ x.writtenBytes)
          _ _ ?_ ?_
        · have hf := encAdd_fields e' dataFormatID
          refine ⟨by rw [hf.2.1]; exact h1, ?_⟩
          have g := hf.1
          omega
        · intro y hy
          have hf := encAdd_fields
            { y with pcmChunkStarted := true, pcmChunkSizePos := y.writtenBytes } (le32c 42)
          have g1 : (addLE32 { y with pcmChunkStarted := true, pcmChunkSizePos := y.writtenBytes } 42).1.frames = y.frames := hf.2.1
          have g2 : (addLE32 { y with pcmChunkStarted := true, pcmChunkSizePos := y.writtenBytes } 42).1.writtenBytes = y.writtenBytes + (le32c 42).length := hf.1
          refine ⟨by rw [g1]; exact hy.1, ?_⟩
          have h3 := hy.2
          omega
    · intro x hx
      have hf := encAdd_fields { x with frames := x.frames + 1 } v
      have g1 : ((encAdd { x with frames := x.frames + 1 } v).1).frames = x.frames + 1 := hf.2.1
      have g2 : ((encAdd { x with frames := x.frames + 1 } v).1).writtenBytes = x.writtenBytes + v.length := hf.1
      refine ⟨?_, ?_⟩
      · rw [g1]
        have h3 := hx.1
        omega
      · rw [g2]
        have h3 := hx.2
        omega
  exact main (if e.wroteHeader then e else (writeHeader e).1) hbase.1 hbase.2

theorem closePatches_pres (x : Enc) :
    x.frames ≤ ((closePatches x).1).frames ∧
    x.writtenBytes ≤ ((closePatches x).1).writtenBytes := by
  unfold closePatches
  refine andThen_fst_pres (fun y => x.frames ≤ y.frames ∧ x.writtenBytes ≤ y.writtenBytes)
    _ _ ?_ ?_
  · have hf := encAdd_fields (seekEnc x 4) (le32c ((seekEnc x 4).writtenBytes + 4294967288))
    have g1 : (addLE32 (seekEnc x 4) ((seekEnc x 4).writtenBytes + 4294967288)).1.frames = x.frames := hf.2.1
    have g2 : (addLE32 (seekEnc x 4) ((seekEnc x 4).writtenBytes + 4294967288)).1.writtenBytes = x.writtenBytes + (le32c ((seekEnc x 4).writtenBytes + 4294967288)).length := hf.1
    exact ⟨le_of_eq g1.symm, by rw [g2]; omega⟩
  · intro y hy
    refine andThen_fst_pres (fun z => x.frames ≤ z.frames ∧ x.writtenBytes ≤ z.writtenBytes)
      _ _ ?_ ?_
    · split
      · show x.frames ≤ (addLE32 (seekEnc y y.pcmChunkSizePos) ((seekEnc y y.pcmChunkSizePos).bitDepth / 8 * (seekEnc y y.pcmChunkSizePos).numChans * (seekEnc y y.pcmChunkSizePos).frames)).1.frames ∧ x.writtenBytes ≤ (addLE32 (seekEnc y y.pcmChunkSizePos) ((seekEnc y y.pcmChunkSizePos).bitDepth / 8 * (seekEnc y y.pcmChunkSizePos).numChans * (seekEnc y y.pcmChunkSizePos).frames)).1.writtenBytes
        have hf := encAdd_fields (seekEnc y y.pcmChunkSizePos)
          (le32c ((seekEnc y y.pcmChunkSizePos).bitDepth / 8 * (seekEnc y y.pcmChunkSizePos).numChans * (seekEnc y y.pcmChunkSizePos).frames))
        have g1 : (addLE32 (seekEnc y y.pcmChunkSizePos) ((seekEnc y y.pcmChunkSizePos).bitDepth / 8 * (seekEnc y y.pcmChunkSizePos).numChans * (seekEnc y y.pcmChunkSizePos).frames)).1.frames = y.frames := hf.2.1
        have g2 : (addLE32 (seekEnc y y.pcmChunkSizePos) ((seekEnc y y.pcmChunkSizePos).bitDepth / 8 * (seekEnc y y.pcmChunkSizePos).numChans * (seekEnc y y.pcmChunkSizePos).frames)).1.writtenBytes = y.writtenBytes + (le32c ((seekEnc y y.pcmChunkSizePos).bitDepth / 8 * (seekEnc y y.pcmChunkSizePos).numChans * (seekEnc y y.pcmChunkSizePos).frames)).length := hf.1
        refine ⟨by rw [g1]; exact hy.1, ?_⟩
        have h3 := hy.2
        omega
      · exact hy
    · intro z hz
      exact ⟨hz.1, hz.2⟩

theorem close_pres (e : Enc) :
    e.frames ≤ ((close e).1).frames ∧ e.writtenBytes ≤ ((close e).1).writtenBytes := by
  unfold close
  split
  · exact ⟨Nat.le_refl _, Nat.le_refl _⟩
  · refine andThen_fst_pres (fun x => e.frames ≤ x.frames ∧ e.writtenBytes ≤ x.writtenBytes)
      _ _ ?_ ?_
    · split
      · exact ⟨Nat.le_refl _, Nat.le_refl _⟩
      · unfold writeMetadata
        constructor
        · exact le_of_eq (addMany_pres _ _).2.1.symm
        · refine le_trans ?_ ((addMany_pres _ _).1)
          exact Nat.le_refl _
    · intro x hx
      have h := closePatches_pres x
      exact ⟨le_trans hx.1 h.1, le_trans hx.2 h.2⟩

/-- Lemma: on a fixed-size value, `writeFrameV` is the byte-level
`writeFrame` on its serialization. -/
theorem writeFrameV_fixed (e : Enc) (bs : List Nat) :
    writeFrameV e (GoValue.fixed bs) = writeFrame e bs := rfl

/-- Lemma: `writeFrameV` never shrinks the frame counter, and never shrinks
the byte counter when the value is fixed-size. -/
theorem writeFrameV_pres (e : Enc) (v : GoValue) :
    e.frames ≤ ((writeFrameV e v).1).frames ∧
      (fixedVal v = true → e.writtenBytes ≤ ((writeFrameV e v).1).writtenBytes) := by
  cases v with
  | fixed bs =>
    have h := writeFrame_pres e bs
    rw [writeFrameV_fixed]
    exact ⟨h.1, fun _ => h.2⟩
  | nonFixed =>
    refine ⟨?_, fun h => absurd h (by decide)⟩
    have hbase : e.frames ≤ (if e.wroteHeader then e else (writeHeader e).1).frames := by
      split
      · exact Nat.le_refl _
      · exact le_of_eq (writeHeader_pres e).1.symm
    have main : ∀ e' : Enc, e.frames ≤ e'.frames →
        e.frames ≤ ((andThen (if e'.pcmChunkStarted then (e', none)
            else andThen (encAdd e' dataFormatID) (fun x =>
              addLE32 { x with pcmChunkStarted := true, pcmChunkSizePos := x.writtenBytes } 42))
          (fun x => encAddV { x with frames := x.frames + 1 } GoValue.nonFixed)).1).frames := by
      intro e' h1
      refine andThen_fst_pres (fun x => e.frames ≤ x.frames) _ _ ?_ ?_
      · split
        · exact h1
        · refine andThen_fst_pres (fun x => e.frames ≤ x.frames) _ _ ?_ ?_
          · show e.frames ≤ ((encAdd e' dataFormatID).1).frames
            rw [(encAdd_fields e' dataFormatID).2.1]
            exact h1
          · intro y hy
            have g1 : (addLE32 { y with pcmChunkStarted := true, pcmChunkSizePos := y.writtenBytes } 42).1.frames = y.frames :=
              (encAdd_fields { y with pcmChunkStarted := true, pcmChunkSizePos := y.writtenBytes } (le32c 42)).2.1
            show e.frames ≤ (addLE32 { y with pcmChunkStarted := true, pcmChunkSizePos := y.writtenBytes } 42).1.frames
            rw [g1]
            exact hy
      · intro x hx
        show e.frames ≤ x.frames + 1
        omega
    exact main (if e.wroteHeader then e else (writeHeader e).1) hbase

theorem op_pres (e : Enc) (op : Op) :
    e.frames ≤ (step e op).frames ∧
      (fixedOp op = true → e.writtenBytes ≤ (step e op).writtenBytes) := by
  cases op with
  | write buf =>
    rcases hs : writeSetup e with ⟨e', o⟩
    have hsp := writeSetup_pres e
    rw [hs] at hsp
    cases o with
    | some msg =>
      have hred : step e (Op.write buf) = e' := by
        show (write e buf).1 = e'
        unfold write
        rw [hs]
      rw [hred]
      exact ⟨le_of_eq hsp.1.symm, fun _ => hsp.2⟩
    | none =>
      have hab := addBuffer_pres e' buf none
      have hred : step e (Op.write buf) = (addBuffer e' buf none).1 := by
        show (write e buf).1 = _
        rw [write_eq_of_setup e e' buf hs]
      rw [hred]
      exact ⟨le_trans (le_of_eq hsp.1.symm) hab.1, fun _ => le_trans hsp.2 hab.2⟩
  | writeAt buf p =>
    rcases hs : writeSetup e with ⟨e', o⟩
    have hsp := writeSetup_pres e
    rw [hs] at hsp
    cases o with
    | some msg =>
      have hred : step e (Op.writeAt buf p) = e' := by
        show (writeAt e buf p).1 = e'
        unfold writeAt
        rw [hs]
      rw [hred]
      exact ⟨le_of_eq hsp.1.symm, fun _ => hsp.2⟩
    | none =>
      have hab := addBuffer_pres e' buf (some p)
      have hred : step e (Op.writeAt buf p) = (addBuffer e' buf (some p)).1 := by
        show (writeAt e buf p).1 = _
        rw [writeAt_eq_of_setup e e' buf p hs]
      rw [hred]
      exact ⟨le_trans (le_of_eq hsp.1.symm) hab.1, fun _ => le_trans hsp.2 hab.2⟩
  | writeFrame v => exact writeFrameV_pres e v
  | addLE v =>
    cases v with
    | fixed bs =>
      have hf := encAdd_fields e bs
      refine ⟨?_, fun _ => ?_⟩
      · show e.frames ≤ ((encAdd e bs).1).frames
        exact le_of_eq hf.2.1.symm
      · show e.writtenBytes ≤ ((encAdd e bs).1).writtenBytes
        have g := hf.1
        omega
    | nonFixed =>
      refine ⟨?_, fun h => absurd h (by decide)⟩
      show e.frames ≤ ((encAddV e GoValue.nonFixed).1).frames
      exact Nat.le_refl _
  | addBE v =>
    cases v with
    | fixed bs =>
      have hf := encAdd_fields e bs
      refine ⟨?_, fun _ => ?_⟩
      · show e.frames ≤ ((encAdd e bs).1).frames
        exact le_of_eq hf.2.1.symm
      · show e.writtenBytes ≤ ((encAdd e bs).1).writtenBytes
        have g := hf.1
        omega
    | nonFixed =>
      refine ⟨?_, fun h => absurd h (by decide)⟩
      show e.frames ≤ ((encAddV e GoValue.nonFixed).1).frames
      exact Nat.le_refl _
  | close => exact ⟨(close_pres e).1, fun _ => (close_pres e).2⟩

/-- C9 counterexample: `AddLE` with a non-fixed-size value, such as a plain Go
`int`, for which `binary.Size` returns -1, decrements the written-bytes
counter: on the encoder that has 44 bytes written after its lazy setup,
one such call drops the counter to 43 while the write itself fails,
refuting the claim that the byte counter never decreases. -/
theorem c9_counterexample :
    tReady.writtenBytes = 44 ∧
      (run tReady [Op.addLE GoValue.nonFixed]).writtenBytes = 43 ∧
      (run tReady [Op.addLE GoValue.nonFixed]).writtenBytes < tReady.writtenBytes ∧
      (encAddV tReady GoValue.nonFixed).2.isSome = true := by
  decide

/-- C9 (corrected): over any sequence of caller operations after creation the
frame counter never decreases and is never reset; the written-bytes
counter never decreases provided every native value handed to `AddLE`,
`AddBE` or `WriteFrame` is fixed-size — for a non-fixed-size value
`binary.Size` returns -1 and the counter is decremented. -/
theorem c9_counters_monotone (e : Enc) (ops : List Op) :
    e.frames ≤ (run e ops).frames ∧
      ((∀ op ∈ ops, fixedOp op = true) → e.writtenBytes ≤ (run e ops).writtenBytes) := by
  induction ops generalizing e with
  | nil => exact ⟨Nat.le_refl _, fun _ => Nat.le_refl _⟩
  | cons op rest ih =>
    have h1 := op_pres e op
    have h2 := ih (step e op)
    refine ⟨le_trans h1.1 h2.1, fun hall => ?_⟩
    have ha := h1.2 (hall op (List.mem_cons_self op rest))
    have hb := h2.2 (fun o ho => hall o (List.mem_cons_of_mem op ho))
    exact le_trans ha hb

/-- Witness for C9 at a concrete run of fixed-size operations: a `WriteFrame`
followed by a `Close` on the fresh test encoder. -/
theorem c9_counters_monotone_witness :
    tEnc0.frames ≤ (run tEnc0 [Op.writeFrame (GoValue.fixed [9, 0]), Op.close]).frames ∧
      tEnc0.writtenBytes ≤ (run tEnc0 [Op.writeFrame (GoValue.fixed [9, 0]), Op.close]).writtenBytes :=
  ⟨(c9_counters_monotone tEnc0 [Op.writeFrame (GoValue.fixed [9, 0]), Op.close]).1,
   (c9_counters_monotone tEnc0 [Op.writeFrame (GoValue.fixed [9, 0]), Op.close]).2 (by decide)⟩

/-- Lemma: `WriteFrame` on a ready encoder over a reliable sink: one more
frame, `v.length` more bytes, nothing else changes. -/
theorem writeFrame_ready (e : Enc) (s : Sink) (v : List Nat)
    (hw : e.w = some s) (hrel : Reliable s)
    (hwh : e.wroteHeader = true) (hpcs : e.pcmChunkStarted = true) :
    ∃ s1, writeFrame e v = ({ e with frames := e.frames + 1, writtenBytes := e.writtenBytes + v.length, w := some s1 }, none) ∧ Reliable s1 := by
  obtain ⟨s1, heq, hrel1⟩ := encAdd_rel { e with frames := e.frames + 1 } s v hw hrel
  refine ⟨s1, ?_, hrel1⟩
  unfold writeFrame
  rw [hwh]
  show andThen (if e.pcmChunkStarted = true then (e, none)
      else andThen (encAdd e dataFormatID) (fun x =>
        addLE32 { x with pcmChunkStarted := true, pcmChunkSizePos := x.writtenBytes } 42))
    (fun x => encAdd { x with frames := x.frames + 1 } v) = _
  rw [hpcs]
  show encAdd { e with frames := e.frames + 1 } v = _
  rw [heq, hpcs, hwh]

/-- The first `WriteFrame` on a fresh encoder over a reliable sink:
header and data chunk are opened (44 bytes, placeholder at 40, but no
`pcmChunkPos` recorded), the frame counter becomes 1 and the value
bytes follow. -/
theorem writeFrame_new (s : Sink) (sr bd nc af : Nat) (v : List Nat) (hrel : Reliable s) :
    ∃ e1 s1, writeFrame (newEncoder s sr bd nc af) v = (e1, none) ∧
      e1.wroteHeader = true ∧ e1.pcmChunkStarted = true ∧
      e1.writtenBytes = 44 + v.length ∧ e1.pcmChunkSizePos = 40 ∧ e1.frames = 1 ∧
      e1.metadata = none ∧ e1.bitDepth = bd ∧ e1.numChans = nc ∧
      e1.w = some s1 ∧ Reliable s1 := by
  set ck : List (List Nat) :=
    [riffID, le32c 42, wavFormatID, fmtID, le32c 16, le16c af, le16c nc, le32c sr,
     le32c (sr * (nc * bd / 8)), le16c (nc * bd / 8), le16c bd] with hck
  set E1 : Enc := { newEncoder s sr bd nc af with wroteHeader := true } with hE1
  obtain ⟨sh, hH, hrelH⟩ := addMany_rel ck E1 s rfl hrel
  set E2 : Enc := { E1 with writtenBytes := E1.writtenBytes + sumLens ck, w := some sh } with hE2
  have hWH : writeHeader (newEncoder s sr bd nc af) = (E2, none) := by
    show addMany E1 ck = (E2, none)
    rw [hH]
  obtain ⟨sd, hD, hrelD⟩ := encAdd_rel E2 sh dataFormatID rfl hrelH
  set E3 : Enc := { E2 with writtenBytes := E2.writtenBytes + dataFormatID.length, w := some sd } with hE3
  set E4 : Enc := { E3 with pcmChunkStarted := true, pcmChunkSizePos := E3.writtenBytes } with hE4
  obtain ⟨sp, hP, hrelP⟩ := encAdd_rel E4 sd (le32c 42) rfl hrelD
  set E5 : Enc := { E4 with writtenBytes := E4.writtenBytes + (le32c 42).length, w := some sp } with hE5
  set E6 : Enc := { E5 with frames := E5.frames + 1 } with hE6
  obtain ⟨sv, hV, hrelV⟩ := encAdd_rel E6 sp v rfl hrelP
  refine ⟨{ E6 with writtenBytes := E6.writtenBytes + v.length, w := some sv }, sv, ?_, rfl,
    rfl, rfl, rfl, rfl, rfl, rfl, rfl, rfl, hrelV⟩
  show andThen (if ((writeHeader (newEncoder s sr bd nc af)).1).pcmChunkStarted = true
      then ((writeHeader (newEncoder s sr bd nc af)).1, none)
      else andThen (encAdd ((writeHeader (newEncoder s sr bd nc af)).1) dataFormatID) (fun x =>
        addLE32 { x with pcmChunkStarted := true, pcmChunkSizePos := x.writtenBytes } 42))
    (fun x => encAdd { x with frames := x.frames + 1 } v) = _
  rw [hWH]
  show andThen (andThen (encAdd E2 dataFormatID) (fun x =>
      addLE32 { x with pcmChunkStarted := true, pcmChunkSizePos := x.writtenBytes } 42))
    (fun x => encAdd { x with frames := x.frames + 1 } v) = _
  rw [hD]
  show andThen (encAdd E4 (le32c 42)) (fun x => encAdd { x with frames := x.frames + 1 } v) = _
  rw [hP]
  show encAdd E6 v = _
  rw [hV]

theorem runFrames_ready : ∀ (k : Nat) (e : Enc) (s : Sink) (v : List Nat),
    e.w = some s → Reliable s → e.wroteHeader = true → e.pcmChunkStarted = true →
    ∃ e1 s1, runFrames e v k = e1 ∧ e1.frames = e.frames + k ∧
      e1.writtenBytes = e.writtenBytes + k * v.length ∧
      e1.wroteHeader = true ∧ e1.pcmChunkStarted = true ∧
      e1.pcmChunkSizePos = e.pcmChunkSizePos ∧ e1.metadata = e.metadata ∧
      e1.bitDepth = e.bitDepth ∧ e1.numChans = e.numChans ∧
      e1.w = some s1 ∧ Reliable s1 := by
  intro k
  induction k with
  | zero =>
    intro e s v hw hrel h1 h2
    exact ⟨e, s, rfl, by omega, by omega, h1, h2, rfl, rfl, rfl, rfl, hw, hrel⟩
  | succ k ih =>
    intro e s v hw hrel h1 h2
    obtain ⟨s1, hwf, hrel1⟩ := writeFrame_ready e s v hw hrel h1 h2
    set e1 : Enc := { e with frames := e.frames + 1, writtenBytes := e.writtenBytes + v.length, w := some s1 } with he1
    obtain ⟨e2, s2, hrun, hfr, hwb, hwh2, hpcs2, hpsz2, hmd2, hbd2, hnc2, hw2, hrel2⟩ :=
      ih e1 s1 v rfl hrel1 h1 h2
    refine ⟨e2, s2, ?_, ?_, ?_, hwh2, hpcs2, hpsz2, hmd2, hbd2, hnc2, hw2, hrel2⟩
    · show runFrames (writeFrame e v).1 v k = e2
      rw [hwf]
      exact hrun
    · rw [hfr]
      show e.frames + 1 + k = e.frames + (k + 1)
      omega
    · rw [hwb]
      show e.writtenBytes + v.length + k * v.length = e.writtenBytes + (k + 1) * v.length
      rw [Nat.succ_mul]
      omega

/-- C10: every `WriteFrame` call on a ready encoder advances the frame
counter by exactly one, independently of the configured channel count;
consequently after `k+1` `WriteFrame` calls of one serialized value
each and a successful `Close`, the patched data-chunk size field reads
`(k+1)*numChans*bitDepth/8`, even though the payload bytes actually
written amount to `(k+1)*v.length`. -/
theorem c10_writeFrame_counts (sr bd nc af : Nat) (s0 : Sink) (v : List Nat) (k : Nat)
    (hrel : Reliable s0) (hbd : bd = 8 ∨ bd = 16 ∨ bd = 24 ∨ bd = 32)
    (hbound : (k + 1) * nc * bd / 8 < 4294967296) :
    (∀ (e : Enc) (s : Sink), e.w = some s → Reliable s → e.wroteHeader = true →
      e.pcmChunkStarted = true → ((writeFrame e v).1).frames = e.frames + 1) ∧
    (runFrames (newEncoder s0 sr bd nc af) v (k + 1)).frames = k + 1 ∧
    (runFrames (newEncoder s0 sr bd nc af) v (k + 1)).writtenBytes = 44 + (k + 1) * v.length ∧
    (close (runFrames (newEncoder s0 sr bd nc af) v (k + 1))).2 = none ∧
    ∃ s1, ((close (runFrames (newEncoder s0 sr bd nc af) v (k + 1))).1).w = some s1 ∧
      readLE32 s1 40 = (k + 1) * nc * bd / 8 := by
  have part1 : ∀ (e : Enc) (s : Sink), e.w = some s → Reliable s → e.wroteHeader = true →
      e.pcmChunkStarted = true → ((writeFrame e v).1).frames = e.frames + 1 := by
    intro e s hw hrel1 hwh hpcs
    obtain ⟨s1, hwf, _⟩ := writeFrame_ready e s v hw hrel1 hwh hpcs
    rw [hwf]
  obtain ⟨e1, s1, hwf1, hwh1, hpcs1, hwb1, hpsz1, hfr1, hmd1, hbd1, hnc1, hw1, hrel1⟩ :=
    writeFrame_new s0 sr bd nc af v hrel
  obtain ⟨e2, s2, hrun, hfr2, hwb2, hwh2, hpcs2, hpsz2, hmd2, hbd2, hnc2, hw2, hrel2⟩ :=
    runFrames_ready k e1 s1 v hw1 hrel1 hwh1 hpcs1
  have hred : runFrames (newEncoder s0 sr bd nc af) v (k + 1) = e2 := by
    show runFrames (writeFrame (newEncoder s0 sr bd nc af) v).1 v k = e2
    rw [hwf1]
    exact hrun
  have hfrT : e2.frames = k + 1 := by
    rw [hfr2, hfr1]
    omega
  have hwbT : e2.writtenBytes = 44 + (k + 1) * v.length := by
    rw [hwb2, hwb1, Nat.succ_mul]
    omega
  have hmdT : e2.metadata = none := by rw [hmd2, hmd1]
  have hpszT : e2.pcmChunkSizePos = 40 := by rw [hpsz2, hpsz1]
  have hclose : close e2 = closePatches e2 := close_nometa e2 s2 hw2 hmdT
  obtain ⟨sZ, hcp, hrelZ, hdata, hsize⟩ :=
    closePatches_chunk e2 s2 hw2 hrel2 (by rw [hpszT]; norm_num)
  rw [hred, hclose, hcp]
  refine ⟨part1, hfrT, hwbT, rfl, sZ, rfl, ?_⟩
  rw [readLE32_eq, hdata, hpszT, readLE32d_store_le32c]
  rw [hbd2, hbd1, hnc2, hnc1, hfrT]
  have hassoc : bd / 8 * nc * (k + 1) = ((k + 1) * nc) * (bd / 8) := by ring
  rw [hassoc, mod32_mul_div bd ((k + 1) * nc) hbd hbound]

theorem c2_data_chunk_size_witness :
    (close (runWrites (newEncoder emptySink 8000 16 1 1) [(sBuf, none)])).2 = none ∧
    ∃ s1, ((close (runWrites (newEncoder emptySink 8000 16 1 1) [(sBuf, none)])).1).w = some s1 ∧
      readLE32 s1 ((runWrites (newEncoder emptySink 8000 16 1 1) [(sBuf, none)]).pcmChunkSizePos) =
        totalFrames [(sBuf, none)] * 1 * 16 / 8 :=
  c2_data_chunk_size 8000 16 1 1 emptySink [(sBuf, none)] (fun i => rfl)
    (Or.inr (Or.inl rfl)) (List.cons_ne_nil _ _) (by decide)

theorem c3_riff_size_witness :
    (close tEnc1).2 = none ∧
    ∃ s1, ((close tEnc1).1).w = some s1 ∧
      readLE32 s1 4 = tEnc1.writtenBytes + metaBytes tEnc1.metadata - 8 :=
  c3_riff_size tEnc1 (sinkOf tEnc1) rfl (fun i => rfl) (Or.inr (by decide)) (by decide)
    (by decide)

theorem c4_nil_buffer_witness :
    write tReady none = (tReady, some "cant add a nil buffer") ∧
    writeAt tReady none 0 = (tReady, 0, some "cant add a nil buffer") :=
  (c4_nil_buffer tReady 0).2.2 (by decide) (by decide)

theorem c5_close_untouched_witness :
    (close (newEncoder emptySink 8000 16 1 1)).2 = none ∧
    ((close (newEncoder emptySink 8000 16 1 1)).1).writtenBytes = 4 ∧
    ∃ s1, ((close (newEncoder emptySink 8000 16 1 1)).1).w = some s1 ∧ s1.size = 8 ∧
      readLE32 s1 4 = 4294967288 :=
  c5_close_untouched 8000 16 1 1 emptySink rfl (fun i => rfl)

theorem c6_double_close_witness :
    ∃ s1 s2, close tEnc1 = ({ tEnc1 with writtenBytes := tEnc1.writtenBytes + 4 + 4, w := some s1 }, none) ∧
      close { tEnc1 with writtenBytes := tEnc1.writtenBytes + 4 + 4, w := some s1 } =
        ({ tEnc1 with writtenBytes := tEnc1.writtenBytes + 4 + 4 + 4 + 4, w := some s2 }, none) ∧
      readLE32 s1 4 = tEnc1.writtenBytes - 8 ∧
      readLE32 s2 4 = tEnc1.writtenBytes :=
  c6_double_close tEnc1 (sinkOf tEnc1) rfl (fun i => rfl) rfl (by decide) (by decide) (by decide)

theorem c7_encoding_shape_witness :
    ∃ bs, encChunks 16 (bufSamples sBuf) = some bs ∧
      bs.length = sBuf.numFrames * sBuf.numChannels * 16 / 8 ∧
      (∀ i j, i < sBuf.numFrames → j < sBuf.numChannels →
        (bs.drop ((i * sBuf.numChannels + j) * (16 / 8))).take (16 / 8) =
          (encodeSampleBytes 16 (sBuf.data.getD (i * sBuf.numChannels + j) 0)).getD []) ∧
      encChunks 24 (bufSamples ⟨1, [1]⟩) = some [1, 0, 0] :=
  c7_encoding_shape sBuf 16 (Or.inr (Or.inl rfl))

theorem c8_writeAt_comm_witness :
    (writeAt (writeAt tEnc0 (some sBuf) 0).1 (some dBuf) 2).1 =
      (writeAt (writeAt tEnc0 (some dBuf) 2).1 (some sBuf) 0).1 ∧
    (∀ k, k < ([5, 0] : List Nat).length →
      (sinkOf (writeAt (writeAt tEnc0 (some sBuf) 0).1 (some dBuf) 2).1).data (tReady.pcmChunkPos + 0 + k) = ([5, 0] : List Nat).getD k 0) ∧
    (∀ k, k < ([7, 0] : List Nat).length →
      (sinkOf (writeAt (writeAt tEnc0 (some sBuf) 0).1 (some dBuf) 2).1).data (tReady.pcmChunkPos + 2 + k) = ([7, 0] : List Nat).getD k 0) :=
  c8_writeAt_comm tEnc0 tReady (sinkOf tReady) sBuf dBuf 0 2 [5, 0] [7, 0]
    rfl rfl (fun i => rfl) (by decide) (by decide) (Or.inl (by decide))

theorem c10_writeFrame_counts_witness :
    (∀ (e : Enc) (s : Sink), e.w = some s → Reliable s → e.wroteHeader = true →
      e.pcmChunkStarted = true → ((writeFrame e [9, 0]).1).frames = e.frames + 1) ∧
    (runFrames (newEncoder emptySink 8000 16 1 1) [9, 0] (0 + 1)).frames = 0 + 1 ∧
    (runFrames (newEncoder emptySink 8000 16 1 1) [9, 0] (0 + 1)).writtenBytes = 44 + (0 + 1) * ([9, 0] : List Nat).length ∧
    (close (runFrames (newEncoder emptySink 8000 16 1 1) [9, 0] (0 + 1))).2 = none ∧
    ∃ s1, ((close (runFrames (newEncoder emptySink 8000 16 1 1) [9, 0] (0 + 1))).1).w = some s1 ∧
      readLE32 s1 40 = (0 + 1) * 1 * 16 / 8 :=
  c10_writeFrame_counts 8000 16 1 1 emptySink [9, 0] 0 (fun i => rfl)
    (Or.inr (Or.inl rfl)) (by decide)

end Wav
